import Mathlib

/-!
# Deferred-work queue of the MT3620 intercore sample (`main.c`)

A shallow embedding of the callback queue (`CallbackNode`, `EnqueueCallback`,
`InvokeCallbacks`), of the periodic sender (`handleSendMsgTimer`), of the
receiver (`handleRecvMsg`, `printComponentId`, `printBytes`) and of the two
interrupt handlers that feed the queue.

Pointers to statically allocated `CallbackNode`s are natural numbers, the null
pointer is `none`, and the memory holding the nodes is a function from
addresses to node contents.  Function pointers (`cb`) and `void *` payloads
(`data`) are natural-number identifiers.
-/

namespace Mailbox

/-! ## Data model -/

/-- The C struct `CallbackNode` (main.c, lines 41-46). -/
structure CallbackNode where
  enqueued : Bool
  next : Option Nat
  data : Nat
  cb : Nat

/-- The static state the queue code reads and writes: the head pointer
`callbacks`, the nodes, and the interrupt priority threshold that
`NVIC_BlockIRQs` / `NVIC_RestoreIRQs` act on. -/
structure Mem where
  callbacks : Option Nat
  node : Nat → CallbackNode
  basePri : Nat

/-- Modelled from the spec: the threshold value that `NVIC_BlockIRQs` installs
(lib/NVIC.h is not part of the sources); any interrupt that could touch the
queue is masked at this level. -/
def NVIC_BLOCKED : Nat := 1

/-- Modelled from the spec: `NVIC_BlockIRQs` of lib/NVIC.h, "raises the
effective interrupt priority threshold" and returns the previous one. -/
def NVIC_BlockIRQs (m : Mem) : Nat × Mem :=
  (m.basePri, { m with basePri := NVIC_BLOCKED })

/-- Modelled from the spec: `NVIC_RestoreIRQs` of lib/NVIC.h, puts back the
threshold saved by `NVIC_BlockIRQs`. -/
def NVIC_RestoreIRQs (prevBasePri : Nat) (m : Mem) : Mem :=
  { m with basePri := prevBasePri }

/-- Store `c` at address `p`. -/
def Mem.setNode (m : Mem) (p : Nat) (c : CallbackNode) : Mem :=
  { m with node := fun q => if q = p then c else m.node q }

/-- `EnqueueCallback` (main.c, lines 125-134). -/
def EnqueueCallback (node : Nat) (m : Mem) : Mem :=
  let (prevBasePri, m0) := NVIC_BlockIRQs m
  let m4 :=
    if !(m0.node node).enqueued then
      let prevHead := m0.callbacks
      let m1 := m0.setNode node { m0.node node with enqueued := true }
      let m2 := { m1 with callbacks := some node }
      m2.setNode node { m2.node node with next := prevHead }
    else m0
  NVIC_RestoreIRQs prevBasePri m4

/-- The critical section of one iteration of `InvokeCallbacks` (main.c, lines
139-145): returns the memory after `NVIC_RestoreIRQs` and the local `node`. -/
def InvokeCallbacks_pop (m : Mem) : Mem × Option Nat :=
  let (prevBasePri, m0) := NVIC_BlockIRQs m
  let node := m0.callbacks
  let m2 :=
    match node with
    | some n =>
      let m1 := m0.setNode n { m0.node n with enqueued := false }
      { m1 with callbacks := (m1.node n).next }
    | none => m0
  (NVIC_RestoreIRQs prevBasePri m2, node)

/-- The whole machine: the queue memory and the rest of the program state
(whatever the work functions act on). -/
structure World (σ : Type) where
  mem : Mem
  u : σ

/-- A table of work functions: `cbs f d` is the effect of calling the function
with identifier `f` on the argument `d`. -/
abbrev Work (σ : Type) := Nat → Nat → World σ → World σ

/-- One call `(node->cb)(node->data)` made by `InvokeCallbacks`, with the queue
memory as it was at the moment of the call. -/
structure Invocation where
  node : Nat
  cb : Nat
  data : Nat
  pre : Mem

/-- `InvokeCallbacks` (main.c, lines 136-151).  The do-while loop runs at most
`fuel` iterations; the first component is the state on return (`none` when the
loop has not ended within `fuel` iterations), the second the calls made, in
order. -/
def InvokeCallbacks {σ : Type} (cbs : Work σ) :
    Nat → World σ → Option (World σ) × List Invocation
  | 0, _ => (none, [])
  | fuel + 1, w =>
    match InvokeCallbacks_pop w.mem with
    | (m, some n) =>
      let w1 : World σ := { w with mem := m }
      let r := InvokeCallbacks cbs fuel (cbs (m.node n).cb (m.node n).data w1)
      (r.1, ⟨n, (m.node n).cb, (m.node n).data, m⟩ :: r.2)
    | (m, none) => (some { w with mem := m }, [])

/-! ## Specification vocabulary -/

/-- The list `l` is the chain of nodes met from pointer `h` by following `next`
up to the null pointer. -/
def chainFrom (node : Nat → CallbackNode) : Option Nat → List Nat → Prop
  | none, [] => True
  | some p, q :: l => p = q ∧ chainFrom node (node q).next l
  | none, _ :: _ => False
  | some _, [] => False

/-- The queue invariant: the chain from the head is a finite duplicate-free
list and holds exactly the nodes whose `enqueued` flag is set. -/
def QueueInv (m : Mem) (l : List Nat) : Prop :=
  chainFrom m.node m.callbacks l ∧ l.Nodup ∧ ∀ n, n ∈ l ↔ (m.node n).enqueued = true

/-- The work function `f` does not enqueue: it leaves the queue memory as it
found it. -/
def NoEnqueue {σ : Type} (cbs : Work σ) (f : Nat) : Prop :=
  ∀ d w, (cbs f d w).mem = w.mem

/-- The queue states the program can be in: from a start state (head null, no
node enqueued) by `EnqueueCallback` calls and critical sections of
`InvokeCallbacks`, in any order. -/
inductive Reachable : Mem → Prop
  | init (m : Mem) : m.callbacks = none → (∀ n, (m.node n).enqueued = false) → Reachable m
  | enqueue (m : Mem) (n : Nat) : Reachable m → Reachable (EnqueueCallback n m)
  | pop (m : Mem) : Reachable m → Reachable (InvokeCallbacks_pop m).1

/-- The nodes called by a run of `InvokeCallbacks`, in order. -/
def calledNodes (tr : List Invocation) : List Nat :=
  tr.map Invocation.node

/-- The calls of a run as triples (node, work function, argument). -/
def calls (tr : List Invocation) : List (Nat × Nat × Nat) :=
  tr.map fun e => (e.node, e.cb, e.data)

/-- The calls a drain makes when the chain is `l` and nothing is enqueued
meanwhile: one per node of `l`, in chain order. -/
def pendingCalls (m : Mem) (l : List Nat) : List (Nat × Nat × Nat) :=
  l.map fun x => (x, (m.node x).cb, (m.node x).data)

/-- The program state after the calls recorded in `tr` have been made, first
to last, starting from `u`: each call runs the work function `cb` on the
argument `data` with the queue memory recorded for it. -/
def replay {σ : Type} (cbs : Work σ) (tr : List Invocation) (u : σ) : σ :=
  tr.foldl (fun acc e => (cbs e.cb e.data ⟨e.pre, acc⟩).u) u

/-! ## The periodic sender -/

/-- The struct `Component_Id` of Socket.h, as `handleSendMsgTimer` initialises
it (main.c, lines 68-73). -/
structure Component_Id where
  seg_0 : Nat
  seg_1 : Nat
  seg_2 : Nat
  seg_3_4 : List Nat
  deriving DecidableEq

/-- The constant `A7ID` (main.c, lines 68-73). -/
def A7ID : Component_Id :=
  { seg_0 := 0x25025d2c, seg_1 := 0x66da, seg_2 := 0x4448,
    seg_3_4 := [0xba, 0xe1, 0xac, 0x26, 0xfc, 0xdd, 0x36, 0x27] }

/-- Modelled from the spec: the distinguished "no error" code (`ERROR_NONE` is
declared in the library headers, which are not part of the sources); the spec
calls every other code "non-zero". -/
def ERROR_NONE : Int := 0

/-- One call `Socket_Write(socket, recipient, data, size)`. -/
structure SocketWrite where
  socket : Nat
  recipient : Component_Id
  data : List Nat
  size : Nat
  deriving DecidableEq

/-- One call `UART_Printf(debug, fmt, text, code)` with a `%s` and a `%ld`
argument. -/
structure LogEntry where
  fmt : String
  text : List Nat
  code : Int
  deriving DecidableEq

/-- The state `handleSendMsgTimer` acts on: the globals `socket` and
`msgCounter`, its static buffer `msg`, and the calls it has made to the
transport and to the UART. -/
structure SendState where
  socket : Nat
  msgCounter : Nat
  msg : List Nat
  writes : List SocketWrite
  log : List LogEntry

/-- The bytes of "rt-app-to-hl-app-", the fixed part of `msg`. -/
def msgPrefix : List Nat :=
  [114, 116, 45, 97, 112, 112, 45, 116, 111, 45, 104, 108, 45, 97, 112, 112, 45]

/-- The state at start-up: `msgCounter = 0` and
`msg = "rt-app-to-hl-app-00"` with its terminating zero byte (20 bytes). -/
def sendInit (socket : Nat) : SendState :=
  { socket := socket, msgCounter := 0, msg := msgPrefix ++ [48, 48, 0], writes := [], log := [] }

/-- `handleSendMsgTimer` (main.c, lines 67-87); `error` is the code that
`Socket_Write` returns to this call (the argument `data` of the C function is
not used by it and is left out).  `msgCounter` is a 32-bit `unsigned`, the
elements of `msg` are bytes, `'0'` is 48 and `sizeof(msg)` is 20. -/
def handleSendMsgTimer (error : Int) (s : SendState) : SendState :=
  let msgLen := 20
  let msg1 := s.msg.set (msgLen - 2) ((48 + s.msgCounter % 10) % 256)
  let msg2 := msg1.set (msgLen - 3) ((48 + s.msgCounter / 10) % 256)
  let s1 : SendState :=
    { s with msg := msg2, msgCounter := (s.msgCounter + 1) % 2 ^ 32 % 100 }
  let s2 : SendState :=
    { s1 with writes := s1.writes ++ [⟨s1.socket, A7ID, s1.msg, msgLen⟩] }
  if error ≠ ERROR_NONE then
    { s2 with log := s2.log ++ [⟨"ERROR: sending msg %s - %ld\r\n", s2.msg, error⟩] }
  else s2

/-- The state after `k` calls of `handleSendMsgTimer`, the call number `j`
(counted from 0) getting the code `errs j` from `Socket_Write`. -/
def sendCalls (errs : Nat → Int) : Nat → SendState → SendState
  | 0, s => s
  | k + 1, s => handleSendMsgTimer (errs k) (sendCalls errs k s)

/-- The two counter digits held in the message (`msg[17]`, `msg[18]`). -/
def counterDigits (s : SendState) : List Nat :=
  (s.msg.drop 17).take 2

/-! ## The UART output and the receiver -/

/-- A piece of what the program hands to the UART: literal text of a format
string or of `UART_Print`, or one conversion of `UART_Printf` with its
argument (`%x`, `%lx`, `%s`, `%ld`). -/
inductive UartOut where
  | lit (text : String)
  | x (v : Nat)
  | lx (v : Nat)
  | s (bytes : List Nat)
  | ld (v : Int)
  deriving DecidableEq

/-- The loop of `printBytes` (main.c, lines 53-55) with `n` iterations left and
the index at `i`; `none` when `bytes[i]` is read outside the array. -/
def printBytes_loop (bytes : List Nat) : Nat → Nat → Option (List UartOut)
  | _, 0 => some []
  | i, n + 1 =>
    match bytes.get? i with
    | none => none
    | some b =>
      match printBytes_loop bytes (i + 1) n with
      | none => none
      | some rest => some (UartOut.x b :: rest)

/-- `printBytes` (main.c, lines 52-56): `i` runs from `start` while `i < size`,
which is `size - start` iterations (none when `size ≤ start`). -/
def printBytes (bytes : List Nat) (start size : Nat) : Option (List UartOut) :=
  printBytes_loop bytes start (size - start)

/-- `printComponentId` (main.c, lines 58-65). -/
def printComponentId (compId : Component_Id) : Option (List UartOut) :=
  match printBytes compId.seg_3_4 0 2, printBytes compId.seg_3_4 2 8 with
  | some o1, some o2 =>
    some ([UartOut.lx compId.seg_0, UartOut.lit "-", UartOut.x compId.seg_1, UartOut.lit "-",
        UartOut.x compId.seg_2, UartOut.lit "-"] ++ o1 ++ [UartOut.lit "-"] ++ o2 ++
      [UartOut.lit "\r\n"])
  | _, _ => none

/-- What `UART_Printf` puts on the wire for an argument of each conversion
(lib/Print.c is not part of the sources, so the three are left open). -/
structure Directives where
  x : Nat → List Nat
  lx : Nat → List Nat
  ld : Int → List Nat

/-- The bytes on the wire for one piece of output. -/
def render (p : Directives) : UartOut → List Nat
  | UartOut.lit text => text.toList.map Char.toNat
  | UartOut.x v => p.x v
  | UartOut.lx v => p.lx v
  | UartOut.s bytes => bytes.takeWhile fun b => b ≠ 0
  | UartOut.ld v => p.ld v

/-- The bytes on the wire for a sequence of pieces. -/
def renderAll (p : Directives) (out : List UartOut) : List Nat :=
  (out.map (render p)).flatten

/-- The ASCII code of the hexadecimal digit `d` (lower case). -/
def hexDigit (d : Nat) : Nat :=
  if d < 10 then 48 + d else 87 + d

/-- The value `v` written with exactly `w` hexadecimal digits. -/
def hexFixed : Nat → Nat → List Nat
  | 0, _ => []
  | w + 1, v => hexFixed w (v / 16) ++ [hexDigit (v % 16)]

/-- The rendering the specification asks for: `seg_0` as 8 hexadecimal digits,
`seg_1` and `seg_2` as 4 each, the first two bytes of `seg_3_4` as 4 and the
other six as 12, joined by `-` and followed by CR LF. -/
def guidText (compId : Component_Id) : List Nat :=
  hexFixed 8 compId.seg_0 ++ [45] ++ hexFixed 4 compId.seg_1 ++ [45] ++
    hexFixed 4 compId.seg_2 ++ [45] ++
    ((compId.seg_3_4.take 2).map (hexFixed 2)).flatten ++ [45] ++
    ((compId.seg_3_4.drop 2).map (hexFixed 2)).flatten ++ [13, 10]

/-- Modelled from the spec: the outcome of one call of `Socket_Read` (Socket.h
is not part of the sources), "caller-provided buffer; lengthInOut is input
capacity, output actual length": the code returned, the sender written to
`senderId`, the bytes copied to the start of the buffer and the value left in
`msg_size`. -/
structure SocketRead where
  error : Int
  senderId : Component_Id
  data : List Nat
  size : Nat

/-- The capacity `handleRecvMsg` passes to `Socket_Read`:
`msg_size = sizeof(msg)` with `static char msg[32]` (main.c, lines 100-101). -/
def recvCapacity : Nat := 32

/-- The state `handleRecvMsg` acts on: its static buffer `msg`, what it has
sent to the UART, and the sockets it has passed to `Socket_Read`. -/
structure RecvState where
  msg : List Nat
  uart : List UartOut
  reads : List Nat

/-- The receiver at start-up: 32 zero bytes, nothing printed, nothing read. -/
def recvInit : RecvState :=
  { msg := List.replicate 32 0, uart := [], reads := [] }

/-- `handleRecvMsg` (main.c, lines 96-112); `handle` is the socket it passes to
`Socket_Read` and `r` is what `Socket_Read` does in this call.  The result is
`none` when the store `msg[msg_size] = 0` falls outside the 32 bytes of `msg`
or a read in `printComponentId` falls outside its array. -/
def handleRecvMsg (handle : Nat) (r : SocketRead) (s : RecvState) : Option RecvState :=
  let msg1 := r.data ++ s.msg.drop r.data.length
  let msg_size := r.size
  let uart1 :=
    if r.error ≠ ERROR_NONE then
      s.uart ++ [UartOut.lit "ERROR: receiving msg ", UartOut.s msg1, UartOut.lit " - ",
        UartOut.ld r.error, UartOut.lit "\r\n"]
    else s.uart
  if msg_size < 32 then
    let msg2 := msg1.set msg_size 0
    let uart2 := uart1 ++ [UartOut.lit "Message received: ", UartOut.s msg2,
      UartOut.lit "\r\nSender: "]
    match printComponentId r.senderId with
    | some o => some { msg := msg2, uart := uart2 ++ o, reads := s.reads ++ [handle] }
    | none => none
  else none

/-! ## The two interrupt handlers -/

/-- The address of the static node `cbn` of `handleSendMsgTimerWrapper`
(main.c, line 92); its `cb` is `handleSendMsgTimer`, function number 0. -/
def sendCbn : Nat := 0

/-- The address of the static node `cbn` of `handleRecvMsgWrapper` (main.c,
line 115); its `cb` is `handleRecvMsg`, function number 1. -/
def recvCbn : Nat := 1

/-- `handleSendMsgTimerWrapper` (main.c, lines 89-94). -/
def handleSendMsgTimerWrapper {σ : Type} (_timer : Nat) (w : World σ) : World σ :=
  { w with mem := EnqueueCallback sendCbn w.mem }

/-- `handleRecvMsgWrapper` (main.c, lines 114-121); the null pointer is 0. -/
def handleRecvMsgWrapper {σ : Type} (handle : Nat) (w : World σ) : World σ :=
  let m1 :=
    if (w.mem.node recvCbn).data = 0 then
      w.mem.setNode recvCbn { w.mem.node recvCbn with data := handle }
    else w.mem
  { w with mem := EnqueueCallback recvCbn m1 }

/-- What can happen to the queue between two looks at the receive node: a
message signal with its handle, a timer expiry, or a pop by the drain loop. -/
inductive QueueEvent where
  | recv (handle : Nat)
  | timer (unit : Nat)
  | pop

/-- The effect of one event. -/
def applyEvent {σ : Type} (w : World σ) : QueueEvent → World σ
  | QueueEvent.recv handle => handleRecvMsgWrapper handle w
  | QueueEvent.timer t => handleSendMsgTimerWrapper t w
  | QueueEvent.pop => { w with mem := (InvokeCallbacks_pop w.mem).1 }

/-- The effect of a sequence of events, first to last. -/
def applyEvents {σ : Type} (w : World σ) (es : List QueueEvent) : World σ :=
  es.foldl applyEvent w

/-- The work functions of the program as far as the sender's state goes:
function 0 is `handleSendMsgTimer`, to which `Socket_Write` returns `error`;
the others leave the sender's state alone. -/
def sendWork (error : Int) : Work SendState := fun f _ w =>
  if f = 0 then { w with u := handleSendMsgTimer error w.u } else w

/-- `EnqueueCallback` on each node of `ns`, first to last. -/
def enqueueAll (ns : List Nat) (m : Mem) : Mem :=
  ns.foldl (fun acc n => EnqueueCallback n acc) m

/-- The work functions of the nodes other than `n` touch the queue only by
calling `EnqueueCallback`, and never on `n`: the work function of the node
`x`, called on `d` in the state `v`, enqueues the nodes `targets x d v`, among
which `n` is not. -/
def OthersSpare {σ : Type} (cbs : Work σ) (targets : Nat → Nat → World σ → List Nat)
    (m : Mem) (n : Nat) : Prop :=
  ∀ x, x ≠ n → ∀ d v,
    (cbs (m.node x).cb d v).mem = enqueueAll (targets x d v) v.mem ∧ n ∉ targets x d v

/-- The work functions of the program as far as the receiver's state goes:
function 1 is `handleRecvMsg`, called on the payload of its node, to which
`Socket_Read` gives the outcome `r`; the others leave the receiver's state
alone.  The state is `none` once a call has gone outside an array. -/
def recvWork (r : SocketRead) : Work (Option RecvState) := fun f d w =>
  if f = 1 then { w with u := w.u.bind (handleRecvMsg d r) } else w

/-- An identifier with leading zero digits in `seg_1` and in the first byte of
`seg_3_4`: 25025d2c-000a-4448-0ae1-ac26fcdd3627. -/
def paddedId : Component_Id :=
  { seg_0 := 0x25025d2c, seg_1 := 0x000a, seg_2 := 0x4448,
    seg_3_4 := [0x0a, 0xe1, 0xac, 0x26, 0xfc, 0xdd, 0x36, 0x27] }

/-- A successful `Socket_Read`: the two bytes "hi" from the peer. -/
def okRead : SocketRead :=
  { error := ERROR_NONE, senderId := A7ID, data := [104, 105], size := 2 }

/-- A failed `Socket_Read`: an error code, nothing copied, `msg_size` left at
the capacity passed in. -/
def failedRead : SocketRead :=
  { error := -1, senderId := A7ID, data := [], size := recvCapacity }

/-! ## Concrete states used to instantiate the theorems -/

/-- The sender with the counter at `c` and the start-up message. -/
def sendAt (socket c : Nat) : SendState :=
  { sendInit socket with msgCounter := c }


/-- The queue memory at start-up: head null, every node idle; node `p` carries
the work function `p` and a null payload. -/
def bootMem : Mem :=
  { callbacks := none, node := fun p => ⟨false, none, 0, p⟩, basePri := 0 }

/-- A table in which work function 1 calls `EnqueueCallback` on node 0 and the
others do nothing. -/
def chainWork : Work Unit := fun f _ w =>
  if f = 1 then { w with mem := EnqueueCallback 0 w.mem } else w

/-- A table in which every work function notes its call (its number and its
argument) at the end of a log and leaves the queue alone. -/
def logWork : Work (List (Nat × Nat)) := fun f d w =>
  { w with u := w.u ++ [(f, d)] }

/-- A table in which every work function notes its call at the end of a log
and work function 1 calls `EnqueueCallback` on the node `t` as well. -/
def chainLogWork (t : Nat) : Work (List (Nat × Nat)) := fun f d w =>
  if f = 1 then { mem := EnqueueCallback t w.mem, u := w.u ++ [(f, d)] }
  else { w with u := w.u ++ [(f, d)] }

/-- The nodes the work function of node `x` enqueues in `chainLogWork t`, at
start-up, where node `x` carries work function `x`. -/
def chainLogTargets (t : Nat) : Nat → Nat → World (List (Nat × Nat)) → List Nat :=
  fun x _ _ => if x = 1 then [t] else []

/-- A table in which work function 0 counts its invocations and calls
`EnqueueCallback` on node 0 during the first `k` of them, work function 1
calls `EnqueueCallback` on the node `t`, and the others do nothing. -/
def repostChainWork (k t : Nat) : Work Nat := fun f _ w =>
  if f = 0 then
    (if w.u < k then { mem := EnqueueCallback 0 w.mem, u := w.u + 1 }
     else { w with u := w.u + 1 })
  else if f = 1 then { w with mem := EnqueueCallback t w.mem }
  else w

/-- The nodes the work function of node `x` enqueues in `repostChainWork k t`,
for `x` other than 0, where node `x` carries work function `x`. -/
def repostChainTargets (t : Nat) : Nat → Nat → World Nat → List Nat :=
  fun x _ _ => if x = 1 then [t] else []

/-! ## Basic facts about the two queue operations -/

theorem EnqueueCallback_pending (n : Nat) (m : Mem) (h : (m.node n).enqueued = true) :
    EnqueueCallback n m = m := by
  simp [EnqueueCallback, NVIC_BlockIRQs, NVIC_RestoreIRQs, h]

theorem EnqueueCallback_idle (n : Nat) (m : Mem) (h : (m.node n).enqueued = false) :
    EnqueueCallback n m =
      { callbacks := some n
        node := fun q => if q = n then
          { enqueued := true, next := m.callbacks, data := (m.node n).data, cb := (m.node n).cb }
          else m.node q
        basePri := m.basePri } := by
  simp only [EnqueueCallback, NVIC_BlockIRQs, NVIC_RestoreIRQs, Mem.setNode, h]
  simp only [Bool.not_false, if_true, Mem.mk.injEq, true_and, and_true]
  funext q
  by_cases hq : q = n <;> simp [hq]

theorem InvokeCallbacks_pop_none (m : Mem) (h : m.callbacks = none) :
    InvokeCallbacks_pop m = (m, none) := by
  cases m
  simp_all [InvokeCallbacks_pop, NVIC_BlockIRQs, NVIC_RestoreIRQs]

theorem InvokeCallbacks_pop_some (m : Mem) (n : Nat) (h : m.callbacks = some n) :
    InvokeCallbacks_pop m =
      ({ callbacks := (m.node n).next
         node := fun q => if q = n then { m.node n with enqueued := false } else m.node q
         basePri := m.basePri }, some n) := by
  simp [InvokeCallbacks_pop, NVIC_BlockIRQs, NVIC_RestoreIRQs, Mem.setNode, h]

/-! ## Chains -/

theorem chainFrom_congr {node node' : Nat → CallbackNode} {l : List Nat}
    (h : ∀ q ∈ l, (node q).next = (node' q).next) (p : Option Nat) :
    chainFrom node p l ↔ chainFrom node' p l := by
  induction l generalizing p with
  | nil => cases p <;> simp [chainFrom]
  | cons q l ih =>
    cases p with
    | none => simp [chainFrom]
    | some p =>
      have hq : (node q).next = (node' q).next := h q (List.mem_cons_self q l)
      have hl : ∀ x ∈ l, (node x).next = (node' x).next :=
        fun x hx => h x (List.mem_cons_of_mem q hx)
      simp only [chainFrom, hq]
      rw [ih hl]

theorem chainFrom_unique {node : Nat → CallbackNode} {p : Option Nat} {l l' : List Nat}
    (h : chainFrom node p l) (h' : chainFrom node p l') : l = l' := by
  induction l generalizing p l' with
  | nil =>
    cases p with
    | none => cases l' with
      | nil => rfl
      | cons _ _ => simp [chainFrom] at h'
    | some _ => simp [chainFrom] at h
  | cons q l ih =>
    cases p with
    | none => simp [chainFrom] at h
    | some p =>
      cases l' with
      | nil => simp [chainFrom] at h'
      | cons q' l' =>
        simp only [chainFrom] at h h'
        obtain ⟨h1, h2⟩ := h
        obtain ⟨h1', h2'⟩ := h'
        subst h1
        subst h1'
        rw [ih h2 h2']

theorem chainFrom_enqueue {m : Mem} {n : Nat} {l : List Nat}
    (hidle : (m.node n).enqueued = false)
    (hchain : chainFrom m.node m.callbacks l) (hn : n ∉ l) :
    chainFrom (EnqueueCallback n m).node (EnqueueCallback n m).callbacks (n :: l) := by
  rw [EnqueueCallback_idle n m hidle]
  simp only [chainFrom, if_true, true_and]
  refine (chainFrom_congr ?_ m.callbacks).2 hchain
  intro q hq
  have : q ≠ n := fun e => hn (e ▸ hq)
  simp [this]

theorem QueueInv_enqueue_idle {m : Mem} {n : Nat} {l : List Nat}
    (hinv : QueueInv m l) (hidle : (m.node n).enqueued = false) :
    QueueInv (EnqueueCallback n m) (n :: l) := by
  obtain ⟨hc, hnd, hiff⟩ := hinv
  have hn : n ∉ l := fun h => by
    have := (hiff n).1 h
    rw [hidle] at this
    cases this
  refine ⟨chainFrom_enqueue hidle hc hn, List.nodup_cons.2 ⟨hn, hnd⟩, ?_⟩
  intro x
  rw [EnqueueCallback_idle n m hidle]
  by_cases hx : x = n
  · simp [hx]
  · simp [hx, hiff x]

theorem QueueInv_pop_cons {m : Mem} {n : Nat} {l : List Nat} (hinv : QueueInv m (n :: l)) :
    m.callbacks = some n ∧ QueueInv (InvokeCallbacks_pop m).1 l ∧
      (InvokeCallbacks_pop m).2 = some n := by
  obtain ⟨hc, hnd, hiff⟩ := hinv
  have hhead : m.callbacks = some n := by
    cases hm : m.callbacks with
    | none => rw [hm] at hc; simp [chainFrom] at hc
    | some p =>
      rw [hm] at hc
      simp only [chainFrom] at hc
      rw [hc.1]
  have hc' : chainFrom m.node (m.node n).next l := by
    rw [hhead] at hc
    simp only [chainFrom, true_and] at hc
    exact hc
  obtain ⟨hn, hnd'⟩ := List.nodup_cons.1 hnd
  refine ⟨hhead, ?_, ?_⟩
  · rw [InvokeCallbacks_pop_some m n hhead]
    refine ⟨?_, hnd', ?_⟩
    · refine (chainFrom_congr ?_ _).1 hc'
      intro q hq
      have : q ≠ n := fun e => hn (e ▸ hq)
      simp [this]
    · intro x
      by_cases hx : x = n
      · subst hx
        simp [hn]
      · have := hiff x
        simp only [List.mem_cons, hx, false_or] at this
        simp [hx, this]
  · rw [InvokeCallbacks_pop_some m n hhead]

theorem QueueInv_nil_head {m : Mem} (hinv : QueueInv m []) : m.callbacks = none := by
  obtain ⟨hc, _, _⟩ := hinv
  cases hm : m.callbacks with
  | none => rfl
  | some p => rw [hm] at hc; simp [chainFrom] at hc

theorem QueueInv_bootMem : QueueInv bootMem [] := by
  refine ⟨?_, List.nodup_nil, ?_⟩
  · simp [chainFrom, bootMem]
  · intro n
    simp [bootMem]

/-! ## Running the drain loop -/

theorem InvokeCallbacks_succ_some {σ : Type} (cbs : Work σ) (fuel : Nat) (w : World σ)
    {m : Mem} {n : Nat} (h : InvokeCallbacks_pop w.mem = (m, some n)) :
    InvokeCallbacks cbs (fuel + 1) w =
      ((InvokeCallbacks cbs fuel (cbs (m.node n).cb (m.node n).data { w with mem := m })).1,
        ⟨n, (m.node n).cb, (m.node n).data, m⟩ ::
          (InvokeCallbacks cbs fuel
            (cbs (m.node n).cb (m.node n).data { w with mem := m })).2) := by
  simp [InvokeCallbacks, h]

theorem InvokeCallbacks_succ_none {σ : Type} (cbs : Work σ) (fuel : Nat) (w : World σ)
    {m : Mem} (h : InvokeCallbacks_pop w.mem = (m, none)) :
    InvokeCallbacks cbs (fuel + 1) w = (some { w with mem := m }, []) := by
  simp [InvokeCallbacks, h]

/-- More fuel does not change a run that has returned. -/
theorem InvokeCallbacks_fuel_mono {σ : Type} (cbs : Work σ) :
    ∀ (fuel : Nat) (w w' : World σ), (InvokeCallbacks cbs fuel w).1 = some w' →
      ∀ fuel', fuel ≤ fuel' → InvokeCallbacks cbs fuel' w = InvokeCallbacks cbs fuel w := by
  intro fuel
  induction fuel with
  | zero => intro w w' h; simp [InvokeCallbacks] at h
  | succ k ih =>
    intro w w' h fuel' hle
    obtain ⟨j, rfl⟩ : ∃ j, fuel' = j + 1 := ⟨fuel' - 1, by omega⟩
    have hkj : k ≤ j := by omega
    rcases hp : InvokeCallbacks_pop w.mem with ⟨m, _ | n⟩
    · rw [InvokeCallbacks_succ_none cbs j w hp, InvokeCallbacks_succ_none cbs k w hp]
    · rw [InvokeCallbacks_succ_some cbs k w hp] at h
      rw [InvokeCallbacks_succ_some cbs j w hp, InvokeCallbacks_succ_some cbs k w hp,
        ih _ w' h j hkj]

theorem EnqueueCallback_fields (n : Nat) (m : Mem) (q : Nat) :
    ((EnqueueCallback n m).node q).cb = (m.node q).cb ∧
    ((EnqueueCallback n m).node q).data = (m.node q).data := by
  cases h : (m.node n).enqueued with
  | true => rw [EnqueueCallback_pending n m h]; exact ⟨rfl, rfl⟩
  | false =>
    rw [EnqueueCallback_idle n m h]
    by_cases hq : q = n
    · subst hq; simp
    · simp [hq]

theorem InvokeCallbacks_pop_fields (m : Mem) (q : Nat) :
    (((InvokeCallbacks_pop m).1).node q).cb = (m.node q).cb ∧
    (((InvokeCallbacks_pop m).1).node q).data = (m.node q).data := by
  cases h : m.callbacks with
  | none => rw [InvokeCallbacks_pop_none m h]; exact ⟨rfl, rfl⟩
  | some n =>
    rw [InvokeCallbacks_pop_some m n h]
    by_cases hq : q = n
    · subst hq; simp
    · simp [hq]

theorem pendingCalls_congr {m m' : Mem} {l : List Nat}
    (h : ∀ x, (m'.node x).cb = (m.node x).cb ∧ (m'.node x).data = (m.node x).data) :
    pendingCalls m' l = pendingCalls m l := by
  unfold pendingCalls
  apply List.map_congr_left
  intro x _
  rw [(h x).1, (h x).2]

theorem chainFrom_pop_cons {m : Mem} {n : Nat} {l : List Nat}
    (hc : chainFrom m.node m.callbacks (n :: l)) (hnd : (n :: l).Nodup) :
    InvokeCallbacks_pop m = ((InvokeCallbacks_pop m).1, some n) ∧
    chainFrom (InvokeCallbacks_pop m).1.node (InvokeCallbacks_pop m).1.callbacks l ∧
    ((InvokeCallbacks_pop m).1.node n).enqueued = false ∧
    ∀ x, x ≠ n → (InvokeCallbacks_pop m).1.node x = m.node x := by
  have hhead : m.callbacks = some n := by
    cases hm : m.callbacks with
    | none => rw [hm] at hc; simp [chainFrom] at hc
    | some p =>
      rw [hm] at hc
      simp only [chainFrom] at hc
      rw [hc.1]
  have hc' : chainFrom m.node (m.node n).next l := by
    rw [hhead] at hc
    simp only [chainFrom, true_and] at hc
    exact hc
  have hn : n ∉ l := (List.nodup_cons.1 hnd).1
  rw [InvokeCallbacks_pop_some m n hhead]
  refine ⟨rfl, ?_, by simp, ?_⟩
  · refine (chainFrom_congr ?_ _).1 hc'
    intro q hq
    have : q ≠ n := fun e => hn (e ▸ hq)
    simp [this]
  · intro x hx
    simp [hx]

/-- Draining a chain whose work functions do not enqueue: the loop returns
within `l.length + 1` iterations, having called the nodes of `l` in chain
order, each with its own `cb` and `data`; the head is then null, the nodes of
`l` are idle and the flags of the other nodes are as before. -/
theorem drain_chain {σ : Type} (cbs : Work σ) :
    ∀ (l : List Nat) (w : World σ), chainFrom w.mem.node w.mem.callbacks l → l.Nodup →
      (∀ x ∈ l, NoEnqueue cbs (w.mem.node x).cb) →
      ∀ fuel, l.length < fuel →
        ∃ w', (InvokeCallbacks cbs fuel w).1 = some w' ∧
          calls (InvokeCallbacks cbs fuel w).2 = pendingCalls w.mem l ∧
          w'.mem.callbacks = none ∧
          (∀ x ∈ l, (w'.mem.node x).enqueued = false) ∧
          ∀ x, x ∉ l → (w'.mem.node x).enqueued = (w.mem.node x).enqueued := by
  intro l
  induction l with
  | nil =>
    intro w hc _ _ fuel hfuel
    obtain ⟨j, rfl⟩ : ∃ j, fuel = j + 1 := ⟨fuel - 1, by simp at hfuel; omega⟩
    have hhead : w.mem.callbacks = none := by
      cases hm : w.mem.callbacks with
      | none => rfl
      | some p => rw [hm] at hc; simp [chainFrom] at hc
    rw [InvokeCallbacks_succ_none cbs j w (InvokeCallbacks_pop_none w.mem hhead)]
    exact ⟨_, rfl, rfl, hhead, fun x hx => absurd hx (List.not_mem_nil x), fun x _ => rfl⟩
  | cons n l ih =>
    intro w hc hnd hno fuel hfuel
    obtain ⟨j, rfl⟩ : ∃ j, fuel = j + 1 := ⟨fuel - 1, by simp at hfuel; omega⟩
    have hj : l.length < j := by simp at hfuel; omega
    obtain ⟨hp, hc', hidle, hframe⟩ := chainFrom_pop_cons hc hnd
    have hf := InvokeCallbacks_pop_fields w.mem
    obtain ⟨hn, hnd'⟩ := List.nodup_cons.1 hnd
    rw [InvokeCallbacks_succ_some cbs j w hp]
    generalize hm : (InvokeCallbacks_pop w.mem).1 = m at hc' hf hidle hframe
    have hmem : (cbs (m.node n).cb (m.node n).data { w with mem := m }).mem = m := by
      rw [(hf n).1]
      exact hno n (List.mem_cons_self n l) _ _
    generalize hw2 : cbs (m.node n).cb (m.node n).data { w with mem := m } = w2 at hmem
    have hc2 : chainFrom w2.mem.node w2.mem.callbacks l := by rw [hmem]; exact hc'
    have hno2 : ∀ x ∈ l, NoEnqueue cbs (w2.mem.node x).cb := by
      intro x hx
      rw [hmem, (hf x).1]
      exact hno x (List.mem_cons_of_mem n hx)
    obtain ⟨w', h1, h2, h3, h4, h5⟩ := ih w2 hc2 hnd' hno2 j hj
    refine ⟨w', h1, ?_, h3, ?_, ?_⟩
    · have htail : pendingCalls w2.mem l = pendingCalls w.mem l := by
        rw [hmem]
        exact pendingCalls_congr hf
      simp only [calls, List.map_cons] at h2 ⊢
      rw [h2, htail, (hf n).1, (hf n).2]
      rfl
    · intro x hx
      rcases List.mem_cons.1 hx with rfl | hx
      · rw [h5 x hn, hmem]
        exact hidle
      · exact h4 x hx
    · intro x hx
      have hxn : x ≠ n := fun e => hx (e ▸ List.mem_cons_self n l)
      have hxl : x ∉ l := fun e => hx (List.mem_cons_of_mem n e)
      rw [h5 x hxl, hmem, hframe x hxn]

theorem calledNodes_of_calls {tr : List Invocation} {m : Mem} {l : List Nat}
    (h : calls tr = pendingCalls m l) : calledNodes tr = l := by
  have := congrArg (List.map Prod.fst) h
  simpa [calls, pendingCalls, calledNodes, List.map_map, Function.comp_def] using this

/-- What `EnqueueCallback` does to a state that satisfies the invariant. -/
theorem QueueInv_enqueue {m : Mem} {l : List Nat} (n : Nat) (hinv : QueueInv m l) :
    ∃ l', QueueInv (EnqueueCallback n m) l' ∧ l'.count n = 1 ∧
      l'.length ≤ l.length + 1 ∧ ∀ x ∈ l', x = n ∨ x ∈ l := by
  cases h : (m.node n).enqueued with
  | true =>
    have hn : n ∈ l := (hinv.2.2 n).2 h
    rw [EnqueueCallback_pending n m h]
    exact ⟨l, hinv, List.count_eq_one_of_mem hinv.2.1 hn, Nat.le_succ _, fun x hx => Or.inr hx⟩
  | false =>
    have hinv' := QueueInv_enqueue_idle hinv h
    refine ⟨n :: l, hinv', List.count_eq_one_of_mem hinv'.2.1 (List.mem_cons_self n l),
      by simp, fun x hx => ?_⟩
    rcases List.mem_cons.1 hx with h1 | h1
    · exact Or.inl h1
    · exact Or.inr h1

theorem EnqueueCallback_twice (m : Mem) (n : Nat) :
    EnqueueCallback n (EnqueueCallback n m) = EnqueueCallback n m := by
  cases h : (m.node n).enqueued with
  | true => rw [EnqueueCallback_pending n m h, EnqueueCallback_pending n m h]
  | false =>
    apply EnqueueCallback_pending
    rw [EnqueueCallback_idle n m h]
    simp

/-! ## The calls of a run and the state it leaves -/

/-- The state a run returns is the start state after the calls it has recorded:
every recorded call was made, with the recorded argument, and nothing else
touched the program state. -/
theorem InvokeCallbacks_replay {σ : Type} (cbs : Work σ) :
    ∀ (fuel : Nat) (w w' : World σ), (InvokeCallbacks cbs fuel w).1 = some w' →
      w'.u = replay cbs (InvokeCallbacks cbs fuel w).2 w.u := by
  intro fuel
  induction fuel with
  | zero =>
    intro w w' h
    simp [InvokeCallbacks] at h
  | succ j ih =>
    intro w w' h
    rcases hp : InvokeCallbacks_pop w.mem with ⟨m, _ | n⟩
    · rw [InvokeCallbacks_succ_none cbs j w hp] at h ⊢
      simp only [Option.some.injEq] at h
      rw [← h]
      rfl
    · rw [InvokeCallbacks_succ_some cbs j w hp] at h ⊢
      exact ih _ w' h

theorem QueueInv_enqueue_iff {m : Mem} {l : List Nat} (n : Nat) (hinv : QueueInv m l) :
    ∃ l', QueueInv (EnqueueCallback n m) l' ∧ ∀ x, x ∈ l' ↔ x = n ∨ x ∈ l := by
  cases h : (m.node n).enqueued with
  | true =>
    have hn : n ∈ l := (hinv.2.2 n).2 h
    rw [EnqueueCallback_pending n m h]
    refine ⟨l, hinv, fun x => ⟨fun hx => Or.inr hx, fun hx => ?_⟩⟩
    rcases hx with rfl | hx
    · exact hn
    · exact hx
  | false =>
    exact ⟨n :: l, QueueInv_enqueue_idle hinv h, fun x => List.mem_cons⟩

theorem QueueInv_enqueueAll (ts : List Nat) :
    ∀ (m : Mem) (l : List Nat), QueueInv m l →
      ∃ l', QueueInv (enqueueAll ts m) l' ∧ ∀ x, x ∈ l' ↔ x ∈ ts ∨ x ∈ l := by
  induction ts with
  | nil =>
    intro m l hinv
    exact ⟨l, hinv, fun x => by simp⟩
  | cons t ts ih =>
    intro m l hinv
    obtain ⟨l1, h1, m1⟩ := QueueInv_enqueue_iff t hinv
    obtain ⟨l2, h2, m2⟩ := ih (EnqueueCallback t m) l1 h1
    refine ⟨l2, h2, fun x => ?_⟩
    rw [m2 x, m1 x, List.mem_cons]
    constructor
    · rintro (h | h | h)
      · exact Or.inl (Or.inr h)
      · exact Or.inl (Or.inl h)
      · exact Or.inr h
    · rintro ((h | h) | h)
      · exact Or.inr (Or.inl h)
      · exact Or.inl h
      · exact Or.inr (Or.inr h)

theorem enqueueAll_cb (ns : List Nat) :
    ∀ (m : Mem) (q : Nat), ((enqueueAll ns m).node q).cb = (m.node q).cb := by
  induction ns with
  | nil => intro m q; rfl
  | cons n ns ih =>
    intro m q
    show ((enqueueAll ns (EnqueueCallback n m)).node q).cb = (m.node q).cb
    rw [ih, (EnqueueCallback_fields n m q).1]

theorem enqueueAll_data (ns : List Nat) :
    ∀ (m : Mem) (q : Nat), ((enqueueAll ns m).node q).data = (m.node q).data := by
  induction ns with
  | nil => intro m q; rfl
  | cons n ns ih =>
    intro m q
    show ((enqueueAll ns (EnqueueCallback n m)).node q).data = (m.node q).data
    rw [ih, (EnqueueCallback_fields n m q).2]

/-- A node that is idle and that no work function enqueues is not called, and
what the other work functions leave alone (`cnt`) is as before on return. -/
theorem spared_never_called {σ : Type} (cbs : Work σ)
    (targets : Nat → Nat → World σ → List Nat) (cnt : σ → Nat) (cbOf : Nat → Nat) (n : Nat)
    (hoth : ∀ x, x ≠ n → ∀ d v,
      (cbs (cbOf x) d v).mem = enqueueAll (targets x d v) v.mem ∧ n ∉ targets x d v)
    (hkeep : ∀ x, x ≠ n → ∀ d v, cnt (cbs (cbOf x) d v).u = cnt v.u) :
    ∀ (fuel : Nat) (w : World σ) (l : List Nat), QueueInv w.mem l → n ∉ l →
      (∀ x, (w.mem.node x).cb = cbOf x) →
      n ∉ calledNodes (InvokeCallbacks cbs fuel w).2 ∧
      ∀ w', (InvokeCallbacks cbs fuel w).1 = some w' → cnt w'.u = cnt w.u := by
  intro fuel
  induction fuel with
  | zero =>
    intro w l _ _ _
    simp [InvokeCallbacks, calledNodes]
  | succ j ih =>
    intro w l hinv hn hcb
    cases l with
    | nil =>
      rw [InvokeCallbacks_succ_none cbs j w
        (InvokeCallbacks_pop_none w.mem (QueueInv_nil_head hinv))]
      refine ⟨by simp [calledNodes], ?_⟩
      intro w' h
      simp only [Option.some.injEq] at h
      rw [← h]
    | cons x l =>
      obtain ⟨_, hinv', hnode⟩ := QueueInv_pop_cons hinv
      have hp : InvokeCallbacks_pop w.mem = ((InvokeCallbacks_pop w.mem).1, some x) := by
        rw [← hnode]
      have hf := InvokeCallbacks_pop_fields w.mem
      have hxn : x ≠ n := fun e => hn (e ▸ List.mem_cons_self x l)
      have hnl : n ∉ l := fun e => hn (List.mem_cons_of_mem x e)
      rw [InvokeCallbacks_succ_some cbs j w hp]
      generalize (InvokeCallbacks_pop w.mem).1 = m at hinv' hf
      have hcbx : (m.node x).cb = cbOf x := by rw [(hf x).1, hcb x]
      rw [hcbx]
      obtain ⟨hmem, hts⟩ := hoth x hxn (m.node x).data { w with mem := m }
      have hc := hkeep x hxn (m.node x).data { w with mem := m }
      generalize cbs (cbOf x) (m.node x).data { w with mem := m } = w2 at hmem hc
      obtain ⟨l2, hinv2, hmem2⟩ := QueueInv_enqueueAll _ m l hinv'
      rw [← hmem] at hinv2
      have hn2 : n ∉ l2 := fun e => by
        rcases (hmem2 n).1 e with h | h
        · exact hts h
        · exact hnl h
      have hcb2 : ∀ y, (w2.mem.node y).cb = cbOf y := by
        intro y
        rw [hmem, enqueueAll_cb, (hf y).1, hcb y]
      obtain ⟨h1, h2⟩ := ih w2 l2 hinv2 hn2 hcb2
      refine ⟨?_, ?_⟩
      · intro hm
        simp only [calledNodes, List.map_cons, List.mem_cons] at hm
        rcases hm with hm | hm
        · exact hxn hm.symm
        · exact h1 hm
      · intro w' h
        rw [h2 w' h, hc]

/-- A pending node `n` whose work function enqueues `n` again `left` more times
(and nothing else), the other work functions enqueueing whatever they like
except `n`: in no run is `n` called more than `left + 1` times, and a run
that returns has called it exactly `left + 1` times; `cnt`, which every call of
the work function of `n` raises by `inc` and the others leave alone, has then
gone up by `inc * (left + 1)`. -/
theorem pending_called {σ : Type} (cbs : Work σ)
    (targets : Nat → Nat → World σ → List Nat) (left cnt : σ → Nat) (inc : Nat)
    (cbOf : Nat → Nat) (n : Nat)
    (hzero : ∀ d v, left v.u = 0 → (cbs (cbOf n) d v).mem = v.mem)
    (hsucc : ∀ d v, 0 < left v.u →
      (cbs (cbOf n) d v).mem = EnqueueCallback n v.mem ∧
        left (cbs (cbOf n) d v).u + 1 = left v.u)
    (hinc : ∀ d v, cnt (cbs (cbOf n) d v).u = cnt v.u + inc)
    (hoth : ∀ x, x ≠ n → ∀ d v,
      (cbs (cbOf x) d v).mem = enqueueAll (targets x d v) v.mem ∧ n ∉ targets x d v)
    (hkeep : ∀ x, x ≠ n → ∀ d v,
      cnt (cbs (cbOf x) d v).u = cnt v.u ∧ left (cbs (cbOf x) d v).u = left v.u) :
    ∀ (fuel : Nat) (w : World σ) (l : List Nat), QueueInv w.mem l → n ∈ l →
      (∀ x, (w.mem.node x).cb = cbOf x) →
      (calledNodes (InvokeCallbacks cbs fuel w).2).count n ≤ left w.u + 1 ∧
      ∀ w', (InvokeCallbacks cbs fuel w).1 = some w' →
        (calledNodes (InvokeCallbacks cbs fuel w).2).count n = left w.u + 1 ∧
        cnt w'.u = cnt w.u + inc * (left w.u + 1) := by
  intro fuel
  induction fuel with
  | zero =>
    intro w l _ _ _
    simp [InvokeCallbacks, calledNodes]
  | succ j ih =>
    intro w l hinv hn hcb
    cases l with
    | nil => exact absurd hn (List.not_mem_nil n)
    | cons x l =>
      obtain ⟨_, hinv', hnode⟩ := QueueInv_pop_cons hinv
      have hp : InvokeCallbacks_pop w.mem = ((InvokeCallbacks_pop w.mem).1, some x) := by
        rw [← hnode]
      have hf := InvokeCallbacks_pop_fields w.mem
      have hxl : x ∉ l := (List.nodup_cons.1 hinv.2.1).1
      rw [InvokeCallbacks_succ_some cbs j w hp]
      generalize (InvokeCallbacks_pop w.mem).1 = m at hinv' hf
      have hcbx : (m.node x).cb = cbOf x := by rw [(hf x).1, hcb x]
      rw [hcbx]
      simp only [calledNodes, List.map_cons]
      by_cases hxn : x = n
      · subst hxn
        have hidle : (m.node x).enqueued = false := by
          have := hinv'.2.2 x
          simp only [hxl, false_iff, Bool.not_eq_true] at this
          exact this
        have hc : cnt (cbs (cbOf x) (m.node x).data { w with mem := m }).u = cnt w.u + inc :=
          hinc (m.node x).data { w with mem := m }
        rw [List.count_cons_self]
        by_cases hl : left w.u = 0
        · have hmem := hzero (m.node x).data { w with mem := m } hl
          generalize cbs (cbOf x) (m.node x).data { w with mem := m } = w2 at hmem hc
          have hinv2 : QueueInv w2.mem l := by rw [hmem]; exact hinv'
          have hcb2 : ∀ y, (w2.mem.node y).cb = cbOf y := by
            intro y
            rw [hmem]
            show (m.node y).cb = cbOf y
            rw [(hf y).1, hcb y]
          obtain ⟨h1, h2⟩ :=
            spared_never_called cbs targets cnt cbOf x hoth
              (fun y hy d v => (hkeep y hy d v).1) j w2 l hinv2 hxl hcb2
          have h0 : (calledNodes (InvokeCallbacks cbs j w2).2).count x = 0 :=
            List.count_eq_zero_of_not_mem h1
          simp only [calledNodes] at h0
          rw [h0, hl]
          refine ⟨Nat.le_refl _, fun w' h => ⟨rfl, ?_⟩⟩
          rw [h2 w' h, hc]
          simp
        · obtain ⟨hmem, hleft⟩ :=
            hsucc (m.node x).data { w with mem := m } (Nat.pos_of_ne_zero hl)
          have hleft : left (cbs (cbOf x) (m.node x).data { w with mem := m }).u + 1 =
              left w.u := hleft
          generalize cbs (cbOf x) (m.node x).data { w with mem := m } = w2 at hmem hc hleft
          have hinv2 : QueueInv w2.mem (x :: l) := by
            rw [hmem]
            exact QueueInv_enqueue_idle hinv' hidle
          have hcb2 : ∀ y, (w2.mem.node y).cb = cbOf y := by
            intro y
            rw [hmem, (EnqueueCallback_fields x _ y).1]
            show (m.node y).cb = cbOf y
            rw [(hf y).1, hcb y]
          obtain ⟨h1, h2⟩ := ih w2 (x :: l) hinv2 (List.mem_cons_self x l) hcb2
          simp only [calledNodes] at h1 h2
          have hl2 : left w2.u + 1 = left w.u := hleft
          have hmul : inc * (left w.u + 1) = inc * (left w2.u + 1) + inc := by
            rw [← hl2]
            ring
          refine ⟨by omega, fun w' h => ?_⟩
          obtain ⟨h3, h4⟩ := h2 w' h
          refine ⟨by omega, ?_⟩
          rw [h4, hc, hmul]
          omega
      · have hnl : n ∈ l := by
          rcases List.mem_cons.1 hn with h | h
          · exact absurd h.symm hxn
          · exact h
        obtain ⟨hmem, _⟩ := hoth x hxn (m.node x).data { w with mem := m }
        obtain ⟨hc, hlf⟩ := hkeep x hxn (m.node x).data { w with mem := m }
        generalize cbs (cbOf x) (m.node x).data { w with mem := m } = w2 at hmem hc hlf
        obtain ⟨l2, hinv2, hmem2⟩ := QueueInv_enqueueAll _ m l hinv'
        rw [← hmem] at hinv2
        have hcb2 : ∀ y, (w2.mem.node y).cb = cbOf y := by
          intro y
          rw [hmem, enqueueAll_cb, (hf y).1, hcb y]
        obtain ⟨h1, h2⟩ := ih w2 l2 hinv2 ((hmem2 n).2 (Or.inr hnl)) hcb2
        simp only [calledNodes] at h1 h2
        have hlf' : left w2.u = left w.u := hlf
        have hc' : cnt w2.u = cnt w.u := hc
        rw [List.count_cons_of_ne (Ne.symm hxn)]
        rw [hlf'] at h1 h2
        rw [hc'] at h2
        exact ⟨h1, h2⟩

/-! ## The enqueue contract -/

/-- C6. Enqueue postcondition: on a node that is not pending (`enqueued` false)
in a state whose chain is `l` and whose linked nodes all carry the flag,
`EnqueueCallback` sets the flag, makes the node the head and points its `next`
at the previous head, so the chain afterwards is the node followed by `l`. -/
theorem EnqueueCallback_post (m : Mem) (n : Nat) (l : List Nat)
    (hidle : (m.node n).enqueued = false)
    (hchain : chainFrom m.node m.callbacks l)
    (hflag : ∀ x ∈ l, (m.node x).enqueued = true) :
    ((EnqueueCallback n m).node n).enqueued = true ∧
    (EnqueueCallback n m).callbacks = some n ∧
    ((EnqueueCallback n m).node n).next = m.callbacks ∧
    chainFrom (EnqueueCallback n m).node (EnqueueCallback n m).callbacks (n :: l) := by
  have hn : n ∉ l := fun h => by
    have := hflag n h
    rw [hidle] at this
    cases this
  refine ⟨?_, ?_, ?_, chainFrom_enqueue hidle hchain hn⟩ <;>
    simp [EnqueueCallback_idle n m hidle]

/-- Instance of C6: node 0 is enqueued in front of the pending node 1. -/
theorem EnqueueCallback_post_witness :
    ((EnqueueCallback 0 (EnqueueCallback 1 bootMem)).node 0).enqueued = true ∧
    (EnqueueCallback 0 (EnqueueCallback 1 bootMem)).callbacks = some 0 ∧
    ((EnqueueCallback 0 (EnqueueCallback 1 bootMem)).node 0).next =
      (EnqueueCallback 1 bootMem).callbacks ∧
    chainFrom (EnqueueCallback 0 (EnqueueCallback 1 bootMem)).node
      (EnqueueCallback 0 (EnqueueCallback 1 bootMem)).callbacks [0, 1] :=
  EnqueueCallback_post (EnqueueCallback 1 bootMem) 0 [1] (by decide)
    (by simp [chainFrom, EnqueueCallback, NVIC_BlockIRQs, NVIC_RestoreIRQs, Mem.setNode, bootMem])
    (by
      intro x hx
      rw [List.mem_singleton.1 hx]
      decide)

/-- C7. Enqueue is a no-op on a pending node: when `enqueued` is already set the
call returns the state it was given (the head, every field of every node, and
the interrupt threshold); hence, from any state, calling `EnqueueCallback`
twice in a row gives the same state as calling it once. -/
theorem EnqueueCallback_noop (m : Mem) (n : Nat) :
    ((m.node n).enqueued = true → EnqueueCallback n m = m) ∧
    EnqueueCallback n (EnqueueCallback n m) = EnqueueCallback n m := by
  exact ⟨EnqueueCallback_pending n m, EnqueueCallback_twice m n⟩

/-- Instance of C7: node 1 is enqueued again while pending. -/
theorem EnqueueCallback_noop_witness :
    ((EnqueueCallback 1 bootMem).node 1).enqueued = true ∧
    EnqueueCallback 1 (EnqueueCallback 1 bootMem) = EnqueueCallback 1 bootMem :=
  ⟨by decide, (EnqueueCallback_noop (EnqueueCallback 1 bootMem) 1).1 (by decide)⟩

/-! ## Draining -/

theorem QueueInv_pending01 : QueueInv (EnqueueCallback 0 (EnqueueCallback 1 bootMem)) [0, 1] :=
  QueueInv_enqueue_idle (QueueInv_enqueue_idle QueueInv_bootMem (by decide)) (by decide)

theorem NoEnqueue_logWork (f : Nat) : NoEnqueue logWork f := fun _ _ => rfl

/-- C8. Drain completeness: from a state that satisfies the invariant with
chain `l`, when the work functions of the pending nodes do not enqueue,
`InvokeCallbacks` returns (within `l.length + 1` iterations); it has called
every pending node exactly once, in chain order, with that node's `cb` and
`data`, and no other node; the program state it returns is the start state
after exactly those calls; the head is null and every flag clear. -/
theorem InvokeCallbacks_drains {σ : Type} (cbs : Work σ) (w : World σ) (l : List Nat)
    (hinv : QueueInv w.mem l) (hno : ∀ x ∈ l, NoEnqueue cbs (w.mem.node x).cb)
    (fuel : Nat) (hfuel : l.length < fuel) :
    ∃ w', (InvokeCallbacks cbs fuel w).1 = some w' ∧
      calls (InvokeCallbacks cbs fuel w).2 = pendingCalls w.mem l ∧
      (∀ x, (calledNodes (InvokeCallbacks cbs fuel w).2).count x = if x ∈ l then 1 else 0) ∧
      w'.u = replay cbs (InvokeCallbacks cbs fuel w).2 w.u ∧
      w'.mem.callbacks = none ∧ ∀ x, (w'.mem.node x).enqueued = false := by
  obtain ⟨w', h1, h2, h3, h4, h5⟩ := drain_chain cbs l w hinv.1 hinv.2.1 hno fuel hfuel
  refine ⟨w', h1, h2, ?_, InvokeCallbacks_replay cbs fuel w w' h1, h3, ?_⟩
  · intro x
    rw [calledNodes_of_calls h2]
    by_cases hx : x ∈ l
    · rw [if_pos hx]
      exact List.count_eq_one_of_mem hinv.2.1 hx
    · rw [if_neg hx]
      exact List.count_eq_zero_of_not_mem hx
  · intro x
    by_cases hx : x ∈ l
    · exact h4 x hx
    · rw [h5 x hx]
      have := hinv.2.2 x
      simp only [hx, false_iff, Bool.not_eq_true] at this
      exact this

/-- Instance of C8: nodes 1 and 0 were enqueued in that order, every work
function notes its call in a log, and the loop gets three iterations; the log
on return holds the call of node 0, then that of node 1. -/
theorem InvokeCallbacks_drains_witness :
    QueueInv (EnqueueCallback 0 (EnqueueCallback 1 bootMem)) [0, 1] ∧
    (InvokeCallbacks logWork 3
      ⟨EnqueueCallback 0 (EnqueueCallback 1 bootMem), []⟩).1.map World.u =
      some [(0, 0), (1, 0)] ∧
    ∃ w', (InvokeCallbacks logWork 3
        ⟨EnqueueCallback 0 (EnqueueCallback 1 bootMem), []⟩).1 = some w' ∧
      calls (InvokeCallbacks logWork 3
        ⟨EnqueueCallback 0 (EnqueueCallback 1 bootMem), []⟩).2 =
        pendingCalls (EnqueueCallback 0 (EnqueueCallback 1 bootMem)) [0, 1] ∧
      (∀ x, (calledNodes (InvokeCallbacks logWork 3
        ⟨EnqueueCallback 0 (EnqueueCallback 1 bootMem), []⟩).2).count x =
          if x ∈ [0, 1] then 1 else 0) ∧
      w'.u = replay logWork (InvokeCallbacks logWork 3
        ⟨EnqueueCallback 0 (EnqueueCallback 1 bootMem), []⟩).2 [] ∧
      w'.mem.callbacks = none ∧ ∀ x, (w'.mem.node x).enqueued = false :=
  ⟨QueueInv_pending01, by decide,
    InvokeCallbacks_drains logWork ⟨EnqueueCallback 0 (EnqueueCallback 1 bootMem), []⟩ [0, 1]
      QueueInv_pending01 (fun x _ => NoEnqueue_logWork _) 3 (by decide)⟩

/-! ## Coalescing of repeated triggers -/

theorem bootMem_cb_enqueue (n x : Nat) : ((EnqueueCallback n bootMem).node x).cb = x := by
  rw [(EnqueueCallback_fields n bootMem x).1]
  rfl

theorem OthersSpare_chainLog (t n : Nat) (m : Mem) (hcb : ∀ x, (m.node x).cb = x)
    (ht : t ≠ n) : OthersSpare (chainLogWork t) (chainLogTargets t) m n := by
  intro x _ d v
  rw [hcb x]
  unfold chainLogWork chainLogTargets
  by_cases hx : x = 1
  · simp only [hx, if_true]
    refine ⟨rfl, ?_⟩
    simp [Ne.symm ht]
  · simp only [hx, if_false]
    exact ⟨rfl, List.not_mem_nil n⟩

/-- C1, as amended. Idempotent enqueue: from a state that satisfies the
invariant with chain `l`, when the work function of `n` does not enqueue and
the work functions of the other nodes never enqueue `n` (they may enqueue other
nodes), calling `EnqueueCallback n` twice in a row leaves `n` exactly once in
the chain; the following `InvokeCallbacks` calls `n` at most once, and when it
returns it has called `n` exactly once, the program state returned being the
start state after the calls of the run.  It returns, within `l.length + 2`
iterations, when no pending work function enqueues. -/
theorem enqueue_twice_invoked_once {σ : Type} (cbs : Work σ)
    (targets : Nat → Nat → World σ → List Nat) (w : World σ) (l : List Nat) (n : Nat)
    (hinv : QueueInv w.mem l)
    (hn : NoEnqueue cbs (w.mem.node n).cb)
    (hoth : OthersSpare cbs targets w.mem n) :
    ∃ l', QueueInv (EnqueueCallback n (EnqueueCallback n w.mem)) l' ∧ l'.count n = 1 ∧
      (∀ fuel,
        (calledNodes (InvokeCallbacks cbs fuel
          { w with mem := EnqueueCallback n (EnqueueCallback n w.mem) }).2).count n ≤ 1 ∧
        ∀ w', (InvokeCallbacks cbs fuel
            { w with mem := EnqueueCallback n (EnqueueCallback n w.mem) }).1 = some w' →
          (calledNodes (InvokeCallbacks cbs fuel
            { w with mem := EnqueueCallback n (EnqueueCallback n w.mem) }).2).count n = 1 ∧
          w'.u = replay cbs (InvokeCallbacks cbs fuel
            { w with mem := EnqueueCallback n (EnqueueCallback n w.mem) }).2 w.u) ∧
      ((∀ x ∈ l, NoEnqueue cbs (w.mem.node x).cb) → ∀ fuel, l.length + 1 < fuel →
        ∃ w', (InvokeCallbacks cbs fuel
          { w with mem := EnqueueCallback n (EnqueueCallback n w.mem) }).1 = some w') := by
  rw [EnqueueCallback_twice w.mem n]
  obtain ⟨l', hinv', hcount, hlen, hsub⟩ := QueueInv_enqueue n hinv
  have hmem : n ∈ l' := List.count_pos_iff.1 (by omega)
  have hcb : ∀ x, (({ w with mem := EnqueueCallback n w.mem } : World σ).mem.node x).cb =
      (w.mem.node x).cb := fun x => (EnqueueCallback_fields n w.mem x).1
  have hmain :=
    pending_called cbs targets (fun _ => 0) (fun _ => 0) 0 (fun x => (w.mem.node x).cb) n
      (fun d v _ => hn d v) (fun d v h => absurd h (Nat.lt_irrefl 0)) (fun _ _ => rfl)
      hoth (fun _ _ _ _ => ⟨rfl, rfl⟩)
  refine ⟨l', hinv', hcount, ?_, ?_⟩
  · intro fuel
    obtain ⟨h1, h2⟩ := hmain fuel { w with mem := EnqueueCallback n w.mem } l' hinv' hmem hcb
    refine ⟨h1, fun w' h => ⟨(h2 w' h).1, ?_⟩⟩
    exact InvokeCallbacks_replay cbs fuel _ w' h
  · intro hno fuel hfuel
    have hno' : ∀ x ∈ l', NoEnqueue cbs ((EnqueueCallback n w.mem).node x).cb := by
      intro x hx
      rw [(EnqueueCallback_fields n w.mem x).1]
      rcases hsub x hx with rfl | h
      · exact hn
      · exact hno x h
    obtain ⟨w', h1, _⟩ :=
      drain_chain cbs l' { w with mem := EnqueueCallback n w.mem } hinv'.1 hinv'.2.1 hno'
        fuel (by omega)
    exact ⟨w', h1⟩

/-- Instance of C1 as amended: node 1 is pending and its work function enqueues
node 2; node 0 is enqueued twice.  The run calls the nodes 0, 1, 2 and the log
on return holds the call of node 0 once. -/
theorem enqueue_twice_invoked_once_witness :
    QueueInv (EnqueueCallback 1 bootMem) [1] ∧
    (InvokeCallbacks (chainLogWork 2) 4
      ⟨EnqueueCallback 0 (EnqueueCallback 0 (EnqueueCallback 1 bootMem)), []⟩).1.map World.u =
      some [(0, 0), (1, 0), (2, 0)] ∧
    ∃ l', QueueInv (EnqueueCallback 0 (EnqueueCallback 0 (EnqueueCallback 1 bootMem))) l' ∧
      l'.count 0 = 1 ∧
      (∀ fuel,
        (calledNodes (InvokeCallbacks (chainLogWork 2) fuel
          ⟨EnqueueCallback 0 (EnqueueCallback 0 (EnqueueCallback 1 bootMem)), []⟩).2).count 0
          ≤ 1 ∧
        ∀ w', (InvokeCallbacks (chainLogWork 2) fuel
            ⟨EnqueueCallback 0 (EnqueueCallback 0 (EnqueueCallback 1 bootMem)), []⟩).1 =
            some w' →
          (calledNodes (InvokeCallbacks (chainLogWork 2) fuel
            ⟨EnqueueCallback 0 (EnqueueCallback 0 (EnqueueCallback 1 bootMem)), []⟩).2).count 0
            = 1 ∧
          w'.u = replay (chainLogWork 2) (InvokeCallbacks (chainLogWork 2) fuel
            ⟨EnqueueCallback 0 (EnqueueCallback 0 (EnqueueCallback 1 bootMem)), []⟩).2 []) ∧
      ((∀ x ∈ [1], NoEnqueue (chainLogWork 2) ((EnqueueCallback 1 bootMem).node x).cb) →
        ∀ fuel, [1].length + 1 < fuel →
          ∃ w', (InvokeCallbacks (chainLogWork 2) fuel
            ⟨EnqueueCallback 0 (EnqueueCallback 0 (EnqueueCallback 1 bootMem)), []⟩).1 =
            some w') :=
  ⟨QueueInv_enqueue_idle QueueInv_bootMem (by decide), by decide,
    enqueue_twice_invoked_once (chainLogWork 2) (chainLogTargets 2)
      ⟨EnqueueCallback 1 bootMem, []⟩ [1] 0
      (QueueInv_enqueue_idle QueueInv_bootMem (by decide))
      (fun _ _ => rfl)
      (OthersSpare_chainLog 2 0 _ (bootMem_cb_enqueue 1) (by decide))⟩

/-- With node 1 ahead of node 0 in the chain and work function 1 enqueueing
node 1 again, popping node 1 and running its work function gives back the
queue memory there was. -/
theorem loop_mem :
    EnqueueCallback 1 (InvokeCallbacks_pop (EnqueueCallback 1 (EnqueueCallback 0 bootMem))).1 =
      EnqueueCallback 1 (EnqueueCallback 0 bootMem) := by
  have h0 : (bootMem.node 0).enqueued = false := rfl
  have h1 : ((EnqueueCallback 0 bootMem).node 1).enqueued = false := by decide
  rw [EnqueueCallback_idle 1 _ h1, EnqueueCallback_idle 0 _ h0]
  rw [InvokeCallbacks_pop_some _ 1 rfl]
  rw [EnqueueCallback_idle 1 _ (by simp)]
  simp only [Mem.mk.injEq, true_and, and_true]
  funext q
  by_cases hq : q = 1
  · simp [hq]
  · simp [hq]

/-- The run that never ends: node 1, ahead of node 0, enqueues itself at every
call. -/
theorem loop_never_returns {σ : Type} (cbs : Work σ)
    (hself : ∀ d v, (cbs 1 d v).mem = EnqueueCallback 1 v.mem) :
    ∀ (fuel : Nat) (w : World σ), w.mem = EnqueueCallback 1 (EnqueueCallback 0 bootMem) →
      (InvokeCallbacks cbs fuel w).1 = none ∧
      0 ∉ calledNodes (InvokeCallbacks cbs fuel w).2 := by
  intro fuel
  induction fuel with
  | zero =>
    intro w _
    simp [InvokeCallbacks, calledNodes]
  | succ j ih =>
    intro w hw
    have hp : InvokeCallbacks_pop w.mem =
        ((InvokeCallbacks_pop (EnqueueCallback 1 (EnqueueCallback 0 bootMem))).1, some 1) := by
      have : (InvokeCallbacks_pop (EnqueueCallback 1 (EnqueueCallback 0 bootMem))).2 = some 1 := by
        decide
      rw [hw, ← this]
    rw [InvokeCallbacks_succ_some cbs j _ hp]
    have hcb : ((InvokeCallbacks_pop (EnqueueCallback 1 (EnqueueCallback 0 bootMem))).1.node 1).cb
        = 1 := by decide
    rw [hcb]
    have hnext : (cbs 1
        ((InvokeCallbacks_pop (EnqueueCallback 1 (EnqueueCallback 0 bootMem))).1.node 1).data
        { w with mem := (InvokeCallbacks_pop
          (EnqueueCallback 1 (EnqueueCallback 0 bootMem))).1 }).mem =
        EnqueueCallback 1 (EnqueueCallback 0 bootMem) := by
      rw [hself]
      exact loop_mem
    obtain ⟨h1, h2⟩ := ih _ hnext
    refine ⟨h1, ?_⟩
    intro hm
    simp only [calledNodes, List.map_cons, List.mem_cons] at hm
    rcases hm with hm | hm
    · exact absurd hm (by decide)
    · exact h2 hm

/-- Counterexample to C1 as stated, in two runs.  First: node 1 is pending and
its work function enqueues node 0, whose own work function does not enqueue;
after `EnqueueCallback 0` twice, `InvokeCallbacks` returns having called the
nodes 0, 1, 0, and the log shows the work function of node 0 run twice.
Second: node 1 is ahead of node 0 in the chain and enqueues itself at every
call; after `EnqueueCallback 0` twice, `InvokeCallbacks` never returns and
never calls node 0. -/
theorem enqueue_twice_counterexample :
    (QueueInv (EnqueueCallback 1 bootMem) [1] ∧
      NoEnqueue (chainLogWork 0) ((EnqueueCallback 1 bootMem).node 0).cb ∧
      (InvokeCallbacks (chainLogWork 0) 4
        ⟨EnqueueCallback 0 (EnqueueCallback 0 (EnqueueCallback 1 bootMem)), []⟩).1.map World.u =
        some [(0, 0), (1, 0), (0, 0)] ∧
      calledNodes (InvokeCallbacks (chainLogWork 0) 4
        ⟨EnqueueCallback 0 (EnqueueCallback 0 (EnqueueCallback 1 bootMem)), []⟩).2 =
        [0, 1, 0] ∧
      ∀ fuel w', (InvokeCallbacks (chainLogWork 0) fuel
          ⟨EnqueueCallback 0 (EnqueueCallback 0 (EnqueueCallback 1 bootMem)), []⟩).1 = some w' →
        (calledNodes (InvokeCallbacks (chainLogWork 0) fuel
          ⟨EnqueueCallback 0 (EnqueueCallback 0 (EnqueueCallback 1 bootMem)), []⟩).2).count 0
          = 2) ∧
    (QueueInv (EnqueueCallback 1 (EnqueueCallback 0 bootMem)) [1, 0] ∧
      NoEnqueue (chainLogWork 1) ((EnqueueCallback 1 (EnqueueCallback 0 bootMem)).node 0).cb ∧
      ∀ fuel,
        (InvokeCallbacks (chainLogWork 1) fuel
          ⟨EnqueueCallback 0 (EnqueueCallback 0
            (EnqueueCallback 1 (EnqueueCallback 0 bootMem))), []⟩).1 = none ∧
        0 ∉ calledNodes (InvokeCallbacks (chainLogWork 1) fuel
          ⟨EnqueueCallback 0 (EnqueueCallback 0
            (EnqueueCallback 1 (EnqueueCallback 0 bootMem))), []⟩).2) := by
  have hret : (InvokeCallbacks (chainLogWork 0) 4
      ⟨EnqueueCallback 0 (EnqueueCallback 0 (EnqueueCallback 1 bootMem)), []⟩).1.map World.u =
      some [(0, 0), (1, 0), (0, 0)] := by decide
  have htr : calledNodes (InvokeCallbacks (chainLogWork 0) 4
      ⟨EnqueueCallback 0 (EnqueueCallback 0 (EnqueueCallback 1 bootMem)), []⟩).2 = [0, 1, 0] := by
    decide
  refine ⟨⟨QueueInv_enqueue_idle QueueInv_bootMem (by decide), fun _ _ => rfl, hret, htr, ?_⟩,
    ⟨QueueInv_enqueue_idle (QueueInv_enqueue_idle QueueInv_bootMem (by decide)) (by decide),
      fun _ _ => rfl, ?_⟩⟩
  · intro fuel w' h
    obtain ⟨w4, h4⟩ : ∃ w4, (InvokeCallbacks (chainLogWork 0) 4
        ⟨EnqueueCallback 0 (EnqueueCallback 0 (EnqueueCallback 1 bootMem)), []⟩).1 = some w4 := by
      cases h4 : (InvokeCallbacks (chainLogWork 0) 4
        ⟨EnqueueCallback 0 (EnqueueCallback 0 (EnqueueCallback 1 bootMem)), []⟩).1 with
      | none => rw [h4] at hret; cases hret
      | some w4 => exact ⟨w4, rfl⟩
    have heq : InvokeCallbacks (chainLogWork 0) fuel
        ⟨EnqueueCallback 0 (EnqueueCallback 0 (EnqueueCallback 1 bootMem)), []⟩ =
        InvokeCallbacks (chainLogWork 0) 4
        ⟨EnqueueCallback 0 (EnqueueCallback 0 (EnqueueCallback 1 bootMem)), []⟩ := by
      rcases Nat.le_total fuel 4 with hle | hle
      · exact (InvokeCallbacks_fuel_mono (chainLogWork 0) fuel _ w' h 4 hle).symm
      · exact InvokeCallbacks_fuel_mono (chainLogWork 0) 4 _ w4 h4 fuel hle
    rw [heq, htr]
    decide
  · intro fuel
    have hnoop : EnqueueCallback 0 (EnqueueCallback 0
        (EnqueueCallback 1 (EnqueueCallback 0 bootMem))) =
        EnqueueCallback 1 (EnqueueCallback 0 bootMem) := by
      rw [EnqueueCallback_pending 0 _ (by decide), EnqueueCallback_pending 0 _ (by decide)]
    rw [hnoop]
    exact loop_never_returns (chainLogWork 1) (fun _ _ => rfl) fuel _ rfl

/-! ## Two producers -/

/-- Two distinct idle nodes enqueued on an empty queue, then one drain. -/
theorem two_enqueued_drain {σ : Type} (cbs : Work σ) (w : World σ) (a b : Nat)
    (hab : a ≠ b) (hempty : w.mem.callbacks = none)
    (ha : (w.mem.node a).enqueued = false) (hb : (w.mem.node b).enqueued = false)
    (hna : NoEnqueue cbs (w.mem.node a).cb) (hnb : NoEnqueue cbs (w.mem.node b).cb)
    (fuel : Nat) (hfuel : 3 ≤ fuel) :
    ∃ w', (InvokeCallbacks cbs fuel
        { w with mem := EnqueueCallback b (EnqueueCallback a w.mem) }).1 = some w' ∧
      calls (InvokeCallbacks cbs fuel
        { w with mem := EnqueueCallback b (EnqueueCallback a w.mem) }).2 =
        [(b, (w.mem.node b).cb, (w.mem.node b).data),
          (a, (w.mem.node a).cb, (w.mem.node a).data)] := by
  have hc0 : chainFrom w.mem.node w.mem.callbacks [] := by
    rw [hempty]
    simp [chainFrom]
  have hc1 := chainFrom_enqueue ha hc0 (List.not_mem_nil a)
  have hb1 : ((EnqueueCallback a w.mem).node b).enqueued = false := by
    rw [EnqueueCallback_idle a w.mem ha]
    simp [Ne.symm hab, hb]
  have hba : b ∉ [a] := by simp [Ne.symm hab]
  have hc2 := chainFrom_enqueue hb1 hc1 hba
  have hnd : [b, a].Nodup := by simp [Ne.symm hab]
  have hfld : ∀ x, ((EnqueueCallback b (EnqueueCallback a w.mem)).node x).cb =
        (w.mem.node x).cb ∧
      ((EnqueueCallback b (EnqueueCallback a w.mem)).node x).data = (w.mem.node x).data := by
    intro x
    rw [(EnqueueCallback_fields b _ x).1, (EnqueueCallback_fields a _ x).1,
      (EnqueueCallback_fields b _ x).2, (EnqueueCallback_fields a _ x).2]
    exact ⟨rfl, rfl⟩
  have hno : ∀ x ∈ [b, a],
      NoEnqueue cbs ((EnqueueCallback b (EnqueueCallback a w.mem)).node x).cb := by
    intro x hx
    rw [(hfld x).1]
    simp only [List.mem_cons, List.mem_singleton, List.not_mem_nil, or_false] at hx
    rcases hx with rfl | rfl
    · exact hnb
    · exact hna
  obtain ⟨w', h1, h2, _⟩ :=
    drain_chain cbs [b, a] { w with mem := EnqueueCallback b (EnqueueCallback a w.mem) }
      hc2 hnd hno fuel (by simpa using hfuel)
  refine ⟨w', h1, ?_⟩
  rw [h2]
  simp only [pendingCalls, List.map_cons, List.map_nil, (hfld a).1, (hfld a).2, (hfld b).1,
    (hfld b).2]

/-- C2. No loss with two producers: on an empty queue (head null) with two
distinct idle nodes `a` and `b` whose work functions do not enqueue, after
`EnqueueCallback a` and `EnqueueCallback b`, in either order, one call of
`InvokeCallbacks` returns (three iterations suffice); it has made exactly two
calls, one of the work function of `a` on the data of `a` and one of the work
function of `b` on the data of `b`, and the program state it returns is the
start state after those two calls. -/
theorem two_producers_no_loss {σ : Type} (cbs : Work σ) (w : World σ) (a b : Nat)
    (hab : a ≠ b) (hempty : w.mem.callbacks = none)
    (ha : (w.mem.node a).enqueued = false) (hb : (w.mem.node b).enqueued = false)
    (hna : NoEnqueue cbs (w.mem.node a).cb) (hnb : NoEnqueue cbs (w.mem.node b).cb)
    (fuel : Nat) (hfuel : 3 ≤ fuel) :
    (∃ w', (InvokeCallbacks cbs fuel
        { w with mem := EnqueueCallback b (EnqueueCallback a w.mem) }).1 = some w' ∧
      calls (InvokeCallbacks cbs fuel
        { w with mem := EnqueueCallback b (EnqueueCallback a w.mem) }).2 =
        [(b, (w.mem.node b).cb, (w.mem.node b).data),
          (a, (w.mem.node a).cb, (w.mem.node a).data)] ∧
      (calledNodes (InvokeCallbacks cbs fuel
        { w with mem := EnqueueCallback b (EnqueueCallback a w.mem) }).2).count a = 1 ∧
      (calledNodes (InvokeCallbacks cbs fuel
        { w with mem := EnqueueCallback b (EnqueueCallback a w.mem) }).2).count b = 1 ∧
      w'.u = replay cbs (InvokeCallbacks cbs fuel
        { w with mem := EnqueueCallback b (EnqueueCallback a w.mem) }).2 w.u) ∧
    (∃ w', (InvokeCallbacks cbs fuel
        { w with mem := EnqueueCallback a (EnqueueCallback b w.mem) }).1 = some w' ∧
      calls (InvokeCallbacks cbs fuel
        { w with mem := EnqueueCallback a (EnqueueCallback b w.mem) }).2 =
        [(a, (w.mem.node a).cb, (w.mem.node a).data),
          (b, (w.mem.node b).cb, (w.mem.node b).data)] ∧
      (calledNodes (InvokeCallbacks cbs fuel
        { w with mem := EnqueueCallback a (EnqueueCallback b w.mem) }).2).count a = 1 ∧
      (calledNodes (InvokeCallbacks cbs fuel
        { w with mem := EnqueueCallback a (EnqueueCallback b w.mem) }).2).count b = 1 ∧
      w'.u = replay cbs (InvokeCallbacks cbs fuel
        { w with mem := EnqueueCallback a (EnqueueCallback b w.mem) }).2 w.u) := by
  obtain ⟨w1, h1, t1⟩ := two_enqueued_drain cbs w a b hab hempty ha hb hna hnb fuel hfuel
  obtain ⟨w2, h2, t2⟩ := two_enqueued_drain cbs w b a (Ne.symm hab) hempty hb ha hnb hna fuel hfuel
  have n1 : calledNodes (InvokeCallbacks cbs fuel
      { w with mem := EnqueueCallback b (EnqueueCallback a w.mem) }).2 = [b, a] := by
    have := congrArg (List.map Prod.fst) t1
    simpa [calls, calledNodes, List.map_map, Function.comp_def] using this
  have n2 : calledNodes (InvokeCallbacks cbs fuel
      { w with mem := EnqueueCallback a (EnqueueCallback b w.mem) }).2 = [a, b] := by
    have := congrArg (List.map Prod.fst) t2
    simpa [calls, calledNodes, List.map_map, Function.comp_def] using this
  refine ⟨⟨w1, h1, t1, ?_, ?_, InvokeCallbacks_replay cbs fuel _ w1 h1⟩,
    ⟨w2, h2, t2, ?_, ?_, InvokeCallbacks_replay cbs fuel _ w2 h2⟩⟩
  · rw [n1]; simp [List.count_cons, hab, Ne.symm hab]
  · rw [n1]; simp [List.count_cons, hab, Ne.symm hab]
  · rw [n2]; simp [List.count_cons, hab, Ne.symm hab]
  · rw [n2]; simp [List.count_cons, hab, Ne.symm hab]

/-- Instance of C2: the timer node 0 and the receive node 1 at start-up, every
work function noting its call in a log; the log on return holds one call of
each, the later enqueued first. -/
theorem two_producers_no_loss_witness :
    (0 : Nat) ≠ 1 ∧ bootMem.callbacks = none ∧
    (InvokeCallbacks logWork 3
      ⟨EnqueueCallback 1 (EnqueueCallback 0 bootMem), []⟩).1.map World.u =
      some [(1, 0), (0, 0)] ∧
    (InvokeCallbacks logWork 3
      ⟨EnqueueCallback 0 (EnqueueCallback 1 bootMem), []⟩).1.map World.u =
      some [(0, 0), (1, 0)] ∧
    (∃ w', (InvokeCallbacks logWork 3
        ⟨EnqueueCallback 1 (EnqueueCallback 0 bootMem), []⟩).1 = some w' ∧
      calls (InvokeCallbacks logWork 3
        ⟨EnqueueCallback 1 (EnqueueCallback 0 bootMem), []⟩).2 =
        [(1, (bootMem.node 1).cb, (bootMem.node 1).data),
          (0, (bootMem.node 0).cb, (bootMem.node 0).data)] ∧
      (calledNodes (InvokeCallbacks logWork 3
        ⟨EnqueueCallback 1 (EnqueueCallback 0 bootMem), []⟩).2).count 0 = 1 ∧
      (calledNodes (InvokeCallbacks logWork 3
        ⟨EnqueueCallback 1 (EnqueueCallback 0 bootMem), []⟩).2).count 1 = 1 ∧
      w'.u = replay logWork (InvokeCallbacks logWork 3
        ⟨EnqueueCallback 1 (EnqueueCallback 0 bootMem), []⟩).2 []) ∧
    (∃ w', (InvokeCallbacks logWork 3
        ⟨EnqueueCallback 0 (EnqueueCallback 1 bootMem), []⟩).1 = some w' ∧
      calls (InvokeCallbacks logWork 3
        ⟨EnqueueCallback 0 (EnqueueCallback 1 bootMem), []⟩).2 =
        [(0, (bootMem.node 0).cb, (bootMem.node 0).data),
          (1, (bootMem.node 1).cb, (bootMem.node 1).data)] ∧
      (calledNodes (InvokeCallbacks logWork 3
        ⟨EnqueueCallback 0 (EnqueueCallback 1 bootMem), []⟩).2).count 0 = 1 ∧
      (calledNodes (InvokeCallbacks logWork 3
        ⟨EnqueueCallback 0 (EnqueueCallback 1 bootMem), []⟩).2).count 1 = 1 ∧
      w'.u = replay logWork (InvokeCallbacks logWork 3
        ⟨EnqueueCallback 0 (EnqueueCallback 1 bootMem), []⟩).2 []) :=
  ⟨by decide, rfl, by decide, by decide,
    two_producers_no_loss logWork ⟨bootMem, []⟩ 0 1 (by decide) rfl rfl rfl
      (NoEnqueue_logWork _) (NoEnqueue_logWork _) 3 (Nat.le_refl 3)⟩

/-! ## The invariant -/

theorem QueueInv_pop {m : Mem} {l : List Nat} (hinv : QueueInv m l) :
    QueueInv (InvokeCallbacks_pop m).1 l.tail := by
  cases l with
  | nil =>
    rw [InvokeCallbacks_pop_none m (QueueInv_nil_head hinv)]
    exact hinv
  | cons n l => exact (QueueInv_pop_cons hinv).2.1

/-- C5. Queue invariant: in every state reached from a start state (head null,
no node enqueued) by `EnqueueCallback` calls and pop steps of
`InvokeCallbacks` in any order, the chain from the head is a finite list
without duplicates, and a node is in it exactly when its `enqueued` flag is
set. -/
theorem Reachable_QueueInv (m : Mem) (h : Reachable m) : ∃ l, QueueInv m l := by
  induction h with
  | init m hhead hidle =>
    refine ⟨[], ?_, List.nodup_nil, ?_⟩
    · rw [hhead]
      simp [chainFrom]
    · intro n
      simp [hidle n]
  | enqueue m n _ ih =>
    obtain ⟨l, hl⟩ := ih
    obtain ⟨l', hl', _⟩ := QueueInv_enqueue n hl
    exact ⟨l', hl'⟩
  | pop m _ ih =>
    obtain ⟨l, hl⟩ := ih
    exact ⟨l.tail, QueueInv_pop hl⟩

/-- Instance of C5: nodes 1, 0 and 1 again are enqueued, then one node is
popped. -/
theorem Reachable_QueueInv_witness :
    Reachable (InvokeCallbacks_pop
      (EnqueueCallback 1 (EnqueueCallback 0 (EnqueueCallback 1 bootMem)))).1 ∧
    ∃ l, QueueInv (InvokeCallbacks_pop
      (EnqueueCallback 1 (EnqueueCallback 0 (EnqueueCallback 1 bootMem)))).1 l :=
  ⟨Reachable.pop _ (Reachable.enqueue _ 1 (Reachable.enqueue _ 0 (Reachable.enqueue _ 1
      (Reachable.init bootMem rfl (fun _ => rfl))))),
    Reachable_QueueInv _ (Reachable.pop _ (Reachable.enqueue _ 1 (Reachable.enqueue _ 0
      (Reachable.enqueue _ 1 (Reachable.init bootMem rfl (fun _ => rfl))))))⟩

/-! ## A node runs only while unlinked -/

/-- The node `n` at the head re-enqueues itself `j` more times: it is called
`j + 1` times in a row, then the rest of the chain is drained. -/
theorem drain_repost {σ : Type} (cbs : Work σ) (cnt : σ → Nat) (k n f : Nat)
    (post : List Nat)
    (hstep : ∀ d v, cnt (cbs f d v).u = cnt v.u + 1)
    (hre : ∀ d v, cnt v.u < k → (cbs f d v).mem = EnqueueCallback n v.mem)
    (hstop : ∀ d v, k ≤ cnt v.u → (cbs f d v).mem = v.mem) :
    ∀ (j : Nat) (w : World σ), cnt w.u + j = k → (w.mem.node n).cb = f →
      chainFrom w.mem.node w.mem.callbacks (n :: post) → (n :: post).Nodup →
      (∀ x ∈ post, NoEnqueue cbs (w.mem.node x).cb) →
      ∀ fuel, post.length + j + 1 < fuel →
        ∃ w', (InvokeCallbacks cbs fuel w).1 = some w' ∧
          calledNodes (InvokeCallbacks cbs fuel w).2 = List.replicate (j + 1) n ++ post ∧
          w'.mem.callbacks = none := by
  intro j
  induction j with
  | zero =>
    intro w hk hf hc hnd hno fuel hfuel
    obtain ⟨i, rfl⟩ : ∃ i, fuel = i + 1 := ⟨fuel - 1, by omega⟩
    obtain ⟨hp, hc', _, _⟩ := chainFrom_pop_cons hc hnd
    have hfld := InvokeCallbacks_pop_fields w.mem
    rw [InvokeCallbacks_succ_some cbs i w hp]
    generalize (InvokeCallbacks_pop w.mem).1 = m at hc' hfld
    have hmem : (cbs (m.node n).cb (m.node n).data { w with mem := m }).mem = m := by
      rw [(hfld n).1, hf]
      exact hstop _ _ (by simp only; omega)
    generalize cbs (m.node n).cb (m.node n).data { w with mem := m } = w2 at hmem
    have hc2 : chainFrom w2.mem.node w2.mem.callbacks post := by rw [hmem]; exact hc'
    have hno2 : ∀ x ∈ post, NoEnqueue cbs (w2.mem.node x).cb := by
      intro x hx
      rw [hmem, (hfld x).1]
      exact hno x hx
    obtain ⟨w', h1, h2, h3, _⟩ :=
      drain_chain cbs post w2 hc2 (List.nodup_cons.1 hnd).2 hno2 i (by omega)
    refine ⟨w', h1, ?_, h3⟩
    have := calledNodes_of_calls h2
    simp only [calledNodes, List.map_cons] at this ⊢
    rw [this]
    rfl
  | succ j ih =>
    intro w hk hf hc hnd hno fuel hfuel
    obtain ⟨i, rfl⟩ : ∃ i, fuel = i + 1 := ⟨fuel - 1, by omega⟩
    obtain ⟨hp, hc', hidle, _⟩ := chainFrom_pop_cons hc hnd
    have hfld := InvokeCallbacks_pop_fields w.mem
    rw [InvokeCallbacks_succ_some cbs i w hp]
    generalize (InvokeCallbacks_pop w.mem).1 = m at hc' hfld hidle
    have hmem : (cbs (m.node n).cb (m.node n).data { w with mem := m }).mem =
        EnqueueCallback n m := by
      rw [(hfld n).1, hf]
      exact hre _ _ (by simp only; omega)
    have hcnt : cnt (cbs (m.node n).cb (m.node n).data { w with mem := m }).u =
        cnt w.u + 1 := by
      rw [(hfld n).1, hf]
      exact hstep _ _
    generalize cbs (m.node n).cb (m.node n).data { w with mem := m } = w2 at hmem hcnt
    have hc2 : chainFrom w2.mem.node w2.mem.callbacks (n :: post) := by
      rw [hmem]
      exact chainFrom_enqueue hidle hc' (List.nodup_cons.1 hnd).1
    have hf2 : (w2.mem.node n).cb = f := by
      rw [hmem, (EnqueueCallback_fields n m n).1, (hfld n).1, hf]
    have hno2 : ∀ x ∈ post, NoEnqueue cbs (w2.mem.node x).cb := by
      intro x hx
      rw [hmem, (EnqueueCallback_fields n m x).1, (hfld x).1]
      exact hno x hx
    obtain ⟨w', h1, h2, h3⟩ := ih w2 (by omega) hf2 hc2 hnd hno2 i (by omega)
    refine ⟨w', h1, ?_, h3⟩
    simp only [calledNodes, List.map_cons] at h2 ⊢
    rw [h2]
    rfl

/-- The nodes in front of `n` are drained first, then `n` and its reposts. -/
theorem drain_prefix_repost {σ : Type} (cbs : Work σ) (cnt : σ → Nat) (k n f : Nat)
    (post : List Nat)
    (hstep : ∀ d v, cnt (cbs f d v).u = cnt v.u + 1)
    (hre : ∀ d v, cnt v.u < k → (cbs f d v).mem = EnqueueCallback n v.mem)
    (hstop : ∀ d v, k ≤ cnt v.u → (cbs f d v).mem = v.mem) :
    ∀ (pre : List Nat) (w : World σ), cnt w.u = 0 → (w.mem.node n).cb = f →
      chainFrom w.mem.node w.mem.callbacks (pre ++ n :: post) → (pre ++ n :: post).Nodup →
      (∀ x ∈ pre ++ post, NoEnqueue cbs (w.mem.node x).cb) →
      (∀ x ∈ pre, ∀ d v, cnt (cbs (w.mem.node x).cb d v).u = cnt v.u) →
      ∀ fuel, pre.length + post.length + k + 1 < fuel →
        ∃ w', (InvokeCallbacks cbs fuel w).1 = some w' ∧
          calledNodes (InvokeCallbacks cbs fuel w).2 =
            pre ++ (List.replicate (k + 1) n ++ post) ∧
          w'.mem.callbacks = none := by
  intro pre
  induction pre with
  | nil =>
    intro w hcnt hf hc hnd hno _ fuel hfuel
    simp only [List.nil_append] at hc hnd hno ⊢
    exact drain_repost cbs cnt k n f post hstep hre hstop k w (by omega) hf hc hnd hno fuel
      (by simp at hfuel; omega)
  | cons x pre ih =>
    intro w hcnt hf hc hnd hno hkeep fuel hfuel
    obtain ⟨i, rfl⟩ : ∃ i, fuel = i + 1 := ⟨fuel - 1, by omega⟩
    simp only [List.cons_append] at hc hnd
    obtain ⟨hp, hc', _, _⟩ := chainFrom_pop_cons hc hnd
    have hfld := InvokeCallbacks_pop_fields w.mem
    rw [InvokeCallbacks_succ_some cbs i w hp]
    generalize (InvokeCallbacks_pop w.mem).1 = m at hc' hfld
    have hmem : (cbs (m.node x).cb (m.node x).data { w with mem := m }).mem = m := by
      rw [(hfld x).1]
      exact hno x (by simp) _ _
    have hcnt2 : cnt (cbs (m.node x).cb (m.node x).data { w with mem := m }).u = 0 := by
      rw [(hfld x).1, hkeep x (List.mem_cons_self x pre)]
      exact hcnt
    generalize cbs (m.node x).cb (m.node x).data { w with mem := m } = w2 at hmem hcnt2
    have hc2 : chainFrom w2.mem.node w2.mem.callbacks (pre ++ n :: post) := by
      rw [hmem]; exact hc'
    have hf2 : (w2.mem.node n).cb = f := by rw [hmem, (hfld n).1, hf]
    have hno2 : ∀ y ∈ pre ++ post, NoEnqueue cbs (w2.mem.node y).cb := by
      intro y hy
      rw [hmem, (hfld y).1]
      exact hno y (by
        simp only [List.cons_append, List.mem_cons]
        exact Or.inr hy)
    have hkeep2 : ∀ y ∈ pre, ∀ d v, cnt (cbs (w2.mem.node y).cb d v).u = cnt v.u := by
      intro y hy
      rw [hmem, (hfld y).1]
      exact hkeep y (List.mem_cons_of_mem x hy)
    obtain ⟨w', h1, h2, h3⟩ :=
      ih w2 hcnt2 hf2 hc2 (List.nodup_cons.1 hnd).2 hno2 hkeep2 i
        (by simp at hfuel; omega)
    refine ⟨w', h1, ?_, h3⟩
    simp only [calledNodes, List.map_cons, List.cons_append] at h2 ⊢
    rw [h2]

theorem InvokeCallbacks_pop_head_none {m m' : Mem}
    (h : InvokeCallbacks_pop m = (m', none)) : m'.callbacks = none := by
  cases hm : m.callbacks with
  | none =>
    rw [InvokeCallbacks_pop_none m hm] at h
    simp only [Prod.mk.injEq, and_true] at h
    rw [← h]
    exact hm
  | some p =>
    rw [InvokeCallbacks_pop_some m p hm] at h
    simp at h

/-- When `InvokeCallbacks` returns the queue is empty. -/
theorem InvokeCallbacks_returns_empty {σ : Type} (cbs : Work σ) :
    ∀ (fuel : Nat) (w w' : World σ), (InvokeCallbacks cbs fuel w).1 = some w' →
      w'.mem.callbacks = none := by
  intro fuel
  induction fuel with
  | zero =>
    intro w w' h
    simp [InvokeCallbacks] at h
  | succ j ih =>
    intro w w' h
    rcases hp : InvokeCallbacks_pop w.mem with ⟨m, _ | n⟩
    · rw [InvokeCallbacks_succ_none cbs j w hp] at h
      simp only [Option.some.injEq] at h
      rw [← h]
      exact InvokeCallbacks_pop_head_none hp
    · rw [InvokeCallbacks_succ_some cbs j w hp] at h
      exact ih _ w' h

/-- C3, as amended. Self-repost visibility: let the queue satisfy the invariant
with the node `n` pending, let `cnt` count the calls of the work function of
`n` (zero at the start, one more after each call, untouched by the other
nodes), let that work function call `EnqueueCallback n` during each of its
first `k` calls and leave the queue alone afterwards, and let the work
functions of the other nodes never enqueue `n` (they may enqueue other nodes).
Then one call of `InvokeCallbacks` calls `n` at most `k + 1` times, and when it
returns it has called `n` exactly `k + 1` times, the count in the program
state is `k + 1` and the queue is empty: no repost is left for a later drain.
It returns, within `l.length + k + 1` iterations and with the `k + 1` calls of
`n` coming one right after the other, when the other pending work functions do
not enqueue. -/
theorem self_repost_same_pass {σ : Type} (cbs : Work σ)
    (targets : Nat → Nat → World σ → List Nat) (cnt : σ → Nat) (k n : Nat)
    (w : World σ) (l : List Nat)
    (hinv : QueueInv w.mem l) (hmem : n ∈ l)
    (hcnt : cnt w.u = 0)
    (hstep : ∀ d v, cnt (cbs (w.mem.node n).cb d v).u = cnt v.u + 1)
    (hre : ∀ d v, cnt v.u < k → (cbs (w.mem.node n).cb d v).mem = EnqueueCallback n v.mem)
    (hstop : ∀ d v, k ≤ cnt v.u → (cbs (w.mem.node n).cb d v).mem = v.mem)
    (hoth : OthersSpare cbs targets w.mem n)
    (hkeep : ∀ x, x ≠ n → ∀ d v, cnt (cbs (w.mem.node x).cb d v).u = cnt v.u) :
    (∀ fuel,
      (calledNodes (InvokeCallbacks cbs fuel w).2).count n ≤ k + 1 ∧
      ∀ w', (InvokeCallbacks cbs fuel w).1 = some w' →
        (calledNodes (InvokeCallbacks cbs fuel w).2).count n = k + 1 ∧
        cnt w'.u = k + 1 ∧
        w'.u = replay cbs (InvokeCallbacks cbs fuel w).2 w.u ∧
        w'.mem.callbacks = none) ∧
    ((∀ x ∈ l, x ≠ n → NoEnqueue cbs (w.mem.node x).cb) →
      ∀ fuel, l.length + k < fuel →
        ∃ w' pre post, (InvokeCallbacks cbs fuel w).1 = some w' ∧ l = pre ++ n :: post ∧
          calledNodes (InvokeCallbacks cbs fuel w).2 =
            pre ++ (List.replicate (k + 1) n ++ post)) := by
  refine ⟨?_, ?_⟩
  · intro fuel
    have hmain :=
      pending_called cbs targets (fun u => k - cnt u) cnt 1 (fun x => (w.mem.node x).cb) n
        (fun d v h => hstop d v (by
          have h0 : k - cnt v.u = 0 := h
          omega))
        (fun d v h => by
          have h0 : 0 < k - cnt v.u := h
          refine ⟨hre d v (by omega), ?_⟩
          show k - cnt (cbs (w.mem.node n).cb d v).u + 1 = k - cnt v.u
          rw [hstep d v]
          omega)
        hstep hoth
        (fun x hx d v => ⟨hkeep x hx d v, by
          show k - cnt (cbs (w.mem.node x).cb d v).u = k - cnt v.u
          rw [hkeep x hx d v]⟩)
        fuel w l hinv hmem (fun _ => rfl)
    obtain ⟨h1, h2⟩ := hmain
    have hl : k - cnt w.u + 1 = k + 1 := by
      rw [hcnt]
      rfl
    refine ⟨by
      have h1' : (calledNodes (InvokeCallbacks cbs fuel w).2).count n ≤ k - cnt w.u + 1 := h1
      omega, fun w' h => ?_⟩
    obtain ⟨h3, h4⟩ := h2 w' h
    have h3' : (calledNodes (InvokeCallbacks cbs fuel w).2).count n = k - cnt w.u + 1 := h3
    have h4' : cnt w'.u = cnt w.u + 1 * (k - cnt w.u + 1) := h4
    refine ⟨by omega, by omega, InvokeCallbacks_replay cbs fuel w w' h,
      InvokeCallbacks_returns_empty cbs fuel w w' h⟩
  · intro hno fuel hfuel
    obtain ⟨pre, post, hl⟩ := List.append_of_mem hmem
    have hnd : (pre ++ n :: post).Nodup := hl ▸ hinv.2.1
    have hpre : n ∉ pre := fun h =>
      (List.nodup_append.1 hnd).2.2 h (List.mem_cons_self n post)
    have hpost : n ∉ post := (List.nodup_cons.1 (List.nodup_append.1 hnd).2.1).1
    have hsub : ∀ x ∈ pre ++ post, x ∈ l ∧ x ≠ n := by
      intro x hx
      rcases List.mem_append.1 hx with h | h
      · exact ⟨hl ▸ List.mem_append_left _ h, fun e => hpre (e ▸ h)⟩
      · exact ⟨hl ▸ List.mem_append_right _ (List.mem_cons_of_mem n h), fun e => hpost (e ▸ h)⟩
    have hlen : l.length = pre.length + post.length + 1 := by
      rw [hl]
      simp
      omega
    obtain ⟨w', h1, h2, _⟩ :=
      drain_prefix_repost cbs cnt k n (w.mem.node n).cb post hstep hre hstop pre w hcnt rfl
        (hl ▸ hinv.1) hnd (fun x hx => hno x (hsub x hx).1 (hsub x hx).2)
        (fun x hx => hkeep x (hsub x (List.mem_append_left _ hx)).2) fuel (by omega)
    exact ⟨w', pre, post, h1, hl, h2⟩

theorem QueueInv_pending201 :
    QueueInv (EnqueueCallback 2 (EnqueueCallback 0 (EnqueueCallback 1 bootMem))) [2, 0, 1] :=
  QueueInv_enqueue_idle
    (QueueInv_enqueue_idle (QueueInv_enqueue_idle QueueInv_bootMem (by decide)) (by decide))
    (by decide)

theorem bootMem_cb_enqueue3 (a b c x : Nat) :
    ((EnqueueCallback a (EnqueueCallback b (EnqueueCallback c bootMem))).node x).cb = x := by
  rw [(EnqueueCallback_fields a _ x).1, (EnqueueCallback_fields b _ x).1,
    (EnqueueCallback_fields c _ x).1]
  rfl

theorem repostChainWork_zero_step (k t d : Nat) (v : World Nat) :
    (repostChainWork k t 0 d v).u = v.u + 1 ∧
    (v.u < k → (repostChainWork k t 0 d v).mem = EnqueueCallback 0 v.mem) ∧
    (k ≤ v.u → (repostChainWork k t 0 d v).mem = v.mem) := by
  unfold repostChainWork
  by_cases h : v.u < k
  · simp [h]
  · simp [h]

theorem OthersSpare_repostChain (k t : Nat) (m : Mem) (hcb : ∀ x, (m.node x).cb = x)
    (ht : t ≠ 0) : OthersSpare (repostChainWork k t) (repostChainTargets t) m 0 := by
  intro x hx d v
  rw [hcb x]
  unfold repostChainWork repostChainTargets
  by_cases h1 : x = 1
  · simp only [hx, h1, if_false, if_true]
    refine ⟨by simp [enqueueAll], ?_⟩
    simp [Ne.symm ht]
  · simp only [hx, h1, if_false]
    exact ⟨rfl, List.not_mem_nil 0⟩

theorem repostChainWork_keep (k t : Nat) (m : Mem) (hcb : ∀ x, (m.node x).cb = x) :
    ∀ x, x ≠ 0 → ∀ d (v : World Nat), (repostChainWork k t (m.node x).cb d v).u = v.u := by
  intro x hx d v
  rw [hcb x]
  unfold repostChainWork
  by_cases h1 : x = 1
  · simp [hx, h1]
  · simp [hx, h1]

/-- Instance of C3 as amended: the chain is 2, 0, 1, the work function of node 0
enqueues node 0 during its first two calls, and that of node 1 enqueues node
3.  The run calls the nodes 2, 0, 0, 0, 1, 3 and returns with the count at
3. -/
theorem self_repost_same_pass_witness :
    QueueInv (EnqueueCallback 2 (EnqueueCallback 0 (EnqueueCallback 1 bootMem))) [2, 0, 1] ∧
    calledNodes (InvokeCallbacks (repostChainWork 2 3) 7
      ⟨EnqueueCallback 2 (EnqueueCallback 0 (EnqueueCallback 1 bootMem)), 0⟩).2 =
      [2, 0, 0, 0, 1, 3] ∧
    (InvokeCallbacks (repostChainWork 2 3) 7
      ⟨EnqueueCallback 2 (EnqueueCallback 0 (EnqueueCallback 1 bootMem)), 0⟩).1.map World.u =
      some 3 ∧
    (∀ fuel,
      (calledNodes (InvokeCallbacks (repostChainWork 2 3) fuel
        ⟨EnqueueCallback 2 (EnqueueCallback 0 (EnqueueCallback 1 bootMem)), 0⟩).2).count 0
        ≤ 2 + 1 ∧
      ∀ w', (InvokeCallbacks (repostChainWork 2 3) fuel
          ⟨EnqueueCallback 2 (EnqueueCallback 0 (EnqueueCallback 1 bootMem)), 0⟩).1 = some w' →
        (calledNodes (InvokeCallbacks (repostChainWork 2 3) fuel
          ⟨EnqueueCallback 2 (EnqueueCallback 0 (EnqueueCallback 1 bootMem)), 0⟩).2).count 0
          = 2 + 1 ∧
        id w'.u = 2 + 1 ∧
        w'.u = replay (repostChainWork 2 3) (InvokeCallbacks (repostChainWork 2 3) fuel
          ⟨EnqueueCallback 2 (EnqueueCallback 0 (EnqueueCallback 1 bootMem)), 0⟩).2 0 ∧
        w'.mem.callbacks = none) :=
  ⟨QueueInv_pending201, by decide, by decide,
    (self_repost_same_pass (repostChainWork 2 3) (repostChainTargets 3) id 2 0
      ⟨EnqueueCallback 2 (EnqueueCallback 0 (EnqueueCallback 1 bootMem)), 0⟩ [2, 0, 1]
      QueueInv_pending201 (by decide) rfl
      (fun d v => (repostChainWork_zero_step 2 3 d v).1)
      (fun d v h => (repostChainWork_zero_step 2 3 d v).2.1 h)
      (fun d v h => (repostChainWork_zero_step 2 3 d v).2.2 h)
      (OthersSpare_repostChain 2 3 _ (bootMem_cb_enqueue3 2 0 1) (by decide))
      (repostChainWork_keep 2 3 _ (bootMem_cb_enqueue3 2 0 1))).1⟩

/-- Counterexample to C3 as stated, in two runs, with `k = 1`: the work function
of node 0 enqueues node 0 during its first call and not afterwards.  First:
the chain is 0, 1 and the work function of node 1 enqueues node 0;
`InvokeCallbacks` returns having called the nodes 0, 0, 1, 0: node 0 is called
three times, not two.  Second: node 1 is ahead of node 0 and enqueues itself
at every call; `InvokeCallbacks` never returns and never calls node 0. -/
theorem self_repost_counterexample :
    (QueueInv (EnqueueCallback 0 (EnqueueCallback 1 bootMem)) [0, 1] ∧
      (∀ d (v : World Nat), (repostChainWork 1 0 0 d v).u = v.u + 1 ∧
        (v.u < 1 → (repostChainWork 1 0 0 d v).mem = EnqueueCallback 0 v.mem) ∧
        (1 ≤ v.u → (repostChainWork 1 0 0 d v).mem = v.mem)) ∧
      calledNodes (InvokeCallbacks (repostChainWork 1 0) 5
        ⟨EnqueueCallback 0 (EnqueueCallback 1 bootMem), 0⟩).2 = [0, 0, 1, 0] ∧
      (InvokeCallbacks (repostChainWork 1 0) 5
        ⟨EnqueueCallback 0 (EnqueueCallback 1 bootMem), 0⟩).1.map World.u = some 3 ∧
      ∀ fuel w', (InvokeCallbacks (repostChainWork 1 0) fuel
          ⟨EnqueueCallback 0 (EnqueueCallback 1 bootMem), 0⟩).1 = some w' →
        (calledNodes (InvokeCallbacks (repostChainWork 1 0) fuel
          ⟨EnqueueCallback 0 (EnqueueCallback 1 bootMem), 0⟩).2).count 0 = 3) ∧
    (QueueInv (EnqueueCallback 1 (EnqueueCallback 0 bootMem)) [1, 0] ∧
      ∀ fuel,
        (InvokeCallbacks (repostChainWork 1 1) fuel
          ⟨EnqueueCallback 1 (EnqueueCallback 0 bootMem), 0⟩).1 = none ∧
        0 ∉ calledNodes (InvokeCallbacks (repostChainWork 1 1) fuel
          ⟨EnqueueCallback 1 (EnqueueCallback 0 bootMem), 0⟩).2) := by
  have hret : (InvokeCallbacks (repostChainWork 1 0) 5
      ⟨EnqueueCallback 0 (EnqueueCallback 1 bootMem), 0⟩).1.map World.u = some 3 := by decide
  have htr : calledNodes (InvokeCallbacks (repostChainWork 1 0) 5
      ⟨EnqueueCallback 0 (EnqueueCallback 1 bootMem), 0⟩).2 = [0, 0, 1, 0] := by decide
  refine ⟨⟨QueueInv_pending01, repostChainWork_zero_step 1 0, htr, hret, ?_⟩,
    ⟨QueueInv_enqueue_idle (QueueInv_enqueue_idle QueueInv_bootMem (by decide)) (by decide),
      fun fuel => loop_never_returns (repostChainWork 1 1) (fun _ _ => rfl) fuel _ rfl⟩⟩
  intro fuel w' h
  obtain ⟨w5, h5⟩ : ∃ w5, (InvokeCallbacks (repostChainWork 1 0) 5
      ⟨EnqueueCallback 0 (EnqueueCallback 1 bootMem), 0⟩).1 = some w5 := by
    cases h5 : (InvokeCallbacks (repostChainWork 1 0) 5
      ⟨EnqueueCallback 0 (EnqueueCallback 1 bootMem), 0⟩).1 with
    | none => rw [h5] at hret; cases hret
    | some w5 => exact ⟨w5, rfl⟩
  have heq : InvokeCallbacks (repostChainWork 1 0) fuel
      ⟨EnqueueCallback 0 (EnqueueCallback 1 bootMem), 0⟩ =
      InvokeCallbacks (repostChainWork 1 0) 5
      ⟨EnqueueCallback 0 (EnqueueCallback 1 bootMem), 0⟩ := by
    rcases Nat.le_total fuel 5 with hle | hle
    · exact (InvokeCallbacks_fuel_mono (repostChainWork 1 0) fuel _ w' h 5 hle).symm
    · exact InvokeCallbacks_fuel_mono (repostChainWork 1 0) 5 _ w5 h5 fuel hle
  rw [heq, htr]
  decide

/-! ## The message counter -/

/-- One call of `handleSendMsgTimer` on a well-formed message with the counter
below 100. -/
theorem handleSendMsgTimer_step (error : Int) (s : SendState) (a b : Nat)
    (hmsg : s.msg = msgPrefix ++ [a, b, 0]) (hc : s.msgCounter < 100) :
    (handleSendMsgTimer error s).msg =
      msgPrefix ++ [48 + s.msgCounter / 10, 48 + s.msgCounter % 10, 0] ∧
    (handleSendMsgTimer error s).msgCounter = (s.msgCounter + 1) % 100 ∧
    (handleSendMsgTimer error s).socket = s.socket ∧
    (handleSendMsgTimer error s).writes = s.writes ++
      [⟨s.socket, A7ID, msgPrefix ++ [48 + s.msgCounter / 10, 48 + s.msgCounter % 10, 0], 20⟩] := by
  have h1 : (48 + s.msgCounter % 10) % 256 = 48 + s.msgCounter % 10 := by omega
  have h2 : (48 + s.msgCounter / 10) % 256 = 48 + s.msgCounter / 10 := by omega
  have h3 : (s.msgCounter + 1) % 2 ^ 32 % 100 = (s.msgCounter + 1) % 100 := by omega
  have hset : (s.msg.set (20 - 2) ((48 + s.msgCounter % 10) % 256)).set (20 - 3)
      ((48 + s.msgCounter / 10) % 256) =
      msgPrefix ++ [48 + s.msgCounter / 10, 48 + s.msgCounter % 10, 0] := by
    rw [hmsg, h1, h2]
    simp [msgPrefix, List.set]
  unfold handleSendMsgTimer
  simp only [hset, h3]
  split <;> exact ⟨rfl, rfl, rfl, rfl⟩

/-- After any number of calls the message is well formed, the counter is the
number of calls modulo 100 and the socket is the one given at start-up. -/
theorem sendCalls_shape (errs : Nat → Int) (socket : Nat) (k : Nat) :
    (∃ a b, (sendCalls errs k (sendInit socket)).msg = msgPrefix ++ [a, b, 0]) ∧
    (sendCalls errs k (sendInit socket)).msgCounter = k % 100 ∧
    (sendCalls errs k (sendInit socket)).socket = socket := by
  induction k with
  | zero => exact ⟨⟨48, 48, rfl⟩, rfl, rfl⟩
  | succ k ih =>
    obtain ⟨⟨a, b, hmsg⟩, hcnt, hsock⟩ := ih
    have hlt : (sendCalls errs k (sendInit socket)).msgCounter < 100 := by
      rw [hcnt]
      exact Nat.mod_lt _ (by decide)
    obtain ⟨h1, h2, h3, _⟩ :=
      handleSendMsgTimer_step (errs k) (sendCalls errs k (sendInit socket)) a b hmsg hlt
    refine ⟨⟨_, _, h1⟩, ?_, ?_⟩
    · show (handleSendMsgTimer (errs k) (sendCalls errs k (sendInit socket))).msgCounter = _
      rw [h2, hcnt]
      omega
    · show (handleSendMsgTimer (errs k) (sendCalls errs k (sendInit socket))).socket = _
      rw [h3, hsock]

/-- The state right after call number `i + 1`. -/
theorem sendCalls_succ (errs : Nat → Int) (socket : Nat) (i : Nat) :
    (sendCalls errs (i + 1) (sendInit socket)).msg =
      msgPrefix ++ [48 + i % 100 / 10, 48 + i % 100 % 10, 0] ∧
    (sendCalls errs (i + 1) (sendInit socket)).msgCounter = (i + 1) % 100 ∧
    (sendCalls errs (i + 1) (sendInit socket)).writes =
      (sendCalls errs i (sendInit socket)).writes ++
        [⟨socket, A7ID, msgPrefix ++ [48 + i % 100 / 10, 48 + i % 100 % 10, 0], 20⟩] := by
  obtain ⟨⟨a, b, hmsg⟩, hcnt, hsock⟩ := sendCalls_shape errs socket i
  have hlt : (sendCalls errs i (sendInit socket)).msgCounter < 100 := by
    rw [hcnt]
    exact Nat.mod_lt _ (by decide)
  obtain ⟨h1, h2, _, h4⟩ :=
    handleSendMsgTimer_step (errs i) (sendCalls errs i (sendInit socket)) a b hmsg hlt
  rw [hcnt, hsock] at h4
  rw [hcnt] at h1 h2
  refine ⟨h1, ?_, h4⟩
  show (handleSendMsgTimer (errs i) (sendCalls errs i (sendInit socket))).msgCounter = _
  rw [h2]
  omega

theorem counterDigits_of_msg (s : SendState) (a b : Nat)
    (h : s.msg = msgPrefix ++ [a, b, 0]) : counterDigits s = [a, b] := by
  simp [counterDigits, h, msgPrefix]

/-- C9. Counter sequence: from the start-up state (`msgCounter = 0`), whatever
`Socket_Write` returns, call number `i + 1` of `handleSendMsgTimer` leaves in
the message the fixed text followed by the tens digit and the units digit of
`i mod 100` (as ASCII digits) and the terminator, passes that message to
`Socket_Write`, and leaves `msgCounter = (i + 1) mod 100`. -/
theorem counter_sequence (errs : Nat → Int) (socket : Nat) (i : Nat) :
    (sendCalls errs (i + 1) (sendInit socket)).msg =
      msgPrefix ++ [48 + i % 100 / 10, 48 + i % 100 % 10, 0] ∧
    counterDigits (sendCalls errs (i + 1) (sendInit socket)) =
      [48 + i % 100 / 10, 48 + i % 100 % 10] ∧
    (sendCalls errs (i + 1) (sendInit socket)).msgCounter = (i + 1) % 100 ∧
    (sendCalls errs (i + 1) (sendInit socket)).writes =
      (sendCalls errs i (sendInit socket)).writes ++
        [⟨socket, A7ID, msgPrefix ++ [48 + i % 100 / 10, 48 + i % 100 % 10, 0], 20⟩] := by
  obtain ⟨h1, h2, h3⟩ := sendCalls_succ errs socket i
  exact ⟨h1, counterDigits_of_msg _ _ _ h1, h2, h3⟩

/-- C10, as amended. Counter wrap scenario: from `msgCounter = 0`, after 101
calls of `handleSendMsgTimer` the two counter digits held in the message are
"00" and `msgCounter` is 1; the digits are "01" after the 102nd call. -/
theorem counter_after_101 (errs : Nat → Int) (socket : Nat) :
    counterDigits (sendCalls errs 101 (sendInit socket)) = [48, 48] ∧
    (sendCalls errs 101 (sendInit socket)).msgCounter = 1 ∧
    counterDigits (sendCalls errs 102 (sendInit socket)) = [48, 49] := by
  obtain ⟨h1, h2, _⟩ := sendCalls_succ errs socket 100
  obtain ⟨h3, _, _⟩ := sendCalls_succ errs socket 101
  exact ⟨counterDigits_of_msg _ _ _ h1, h2, counterDigits_of_msg _ _ _ h3⟩

/-- Counterexample to C10 as stated: with `Socket_Write` succeeding every time,
the counter digits in the message after 101 calls are "00", not "01". -/
theorem counter_after_101_counterexample :
    counterDigits (sendCalls (fun _ => ERROR_NONE) 101 (sendInit 0)) = [48, 48] ∧
    counterDigits (sendCalls (fun _ => ERROR_NONE) 101 (sendInit 0)) ≠ [48, 49] := by
  have h := counterDigits_of_msg _ _ _ (sendCalls_succ (fun _ => ERROR_NONE) 0 100).1
  refine ⟨h, ?_⟩
  rw [h]
  decide

/-! ## The send scenario -/

theorem handleSendMsgTimer_msg (error : Int) (s : SendState) :
    (handleSendMsgTimer error s).msg =
      (s.msg.set 18 ((48 + s.msgCounter % 10) % 256)).set 17 ((48 + s.msgCounter / 10) % 256) ∧
    (handleSendMsgTimer error s).msgCounter = (s.msgCounter + 1) % 2 ^ 32 % 100 ∧
    (handleSendMsgTimer error s).writes = s.writes ++
      [⟨s.socket, A7ID, (handleSendMsgTimer error s).msg, 20⟩] := by
  unfold handleSendMsgTimer
  simp only []
  split <;> exact ⟨rfl, rfl, rfl⟩

/-- C11, as amended. Send scenario: with the counter at `c < 100`,
`handleSendMsgTimer` adds exactly one `Socket_Write` call, to the peer
25025d2c-66da-4448-bae1-ac26fcdd3627, with a buffer that holds
"rt-app-to-hl-app-", the two digits of `c` and the terminating zero byte, and
the length argument 20: the byte length of the text plus one for the
terminator. -/
theorem send_scenario (error : Int) (s : SendState) (a b : Nat)
    (hmsg : s.msg = msgPrefix ++ [a, b, 0]) (hc : s.msgCounter < 100) :
    (handleSendMsgTimer error s).writes = s.writes ++
      [⟨s.socket,
        ⟨0x25025d2c, 0x66da, 0x4448, [0xba, 0xe1, 0xac, 0x26, 0xfc, 0xdd, 0x36, 0x27]⟩,
        (msgPrefix ++ [48 + s.msgCounter / 10, 48 + s.msgCounter % 10]) ++ [0], 20⟩] ∧
    (msgPrefix ++ [48 + s.msgCounter / 10, 48 + s.msgCounter % 10]).length + 1 = 20 := by
  obtain ⟨_, _, _, h⟩ := handleSendMsgTimer_step error s a b hmsg hc
  refine ⟨?_, by simp [msgPrefix]⟩
  rw [h]
  simp [A7ID, msgPrefix]

/-- Instance of C11 as amended: the counter is at 37. -/
theorem send_scenario_witness :
    (sendAt 7 37).msg = msgPrefix ++ [48, 48, 0] ∧ (sendAt 7 37).msgCounter < 100 ∧
    (handleSendMsgTimer ERROR_NONE (sendAt 7 37)).writes = (sendAt 7 37).writes ++
      [⟨(sendAt 7 37).socket,
        ⟨0x25025d2c, 0x66da, 0x4448, [0xba, 0xe1, 0xac, 0x26, 0xfc, 0xdd, 0x36, 0x27]⟩,
        (msgPrefix ++ [48 + (sendAt 7 37).msgCounter / 10,
          48 + (sendAt 7 37).msgCounter % 10]) ++ [0], 20⟩] ∧
    (msgPrefix ++ [48 + (sendAt 7 37).msgCounter / 10,
      48 + (sendAt 7 37).msgCounter % 10]).length + 1 = 20 :=
  ⟨rfl, by decide, send_scenario ERROR_NONE (sendAt 7 37) 48 48 rfl (by decide)⟩

/-- Counterexample to C11 as stated: with the counter at 37 the one
`Socket_Write` call carries "rt-app-to-hl-app-37" and the length 20, while that
text is 19 bytes long. -/
theorem send_scenario_counterexample :
    (handleSendMsgTimer ERROR_NONE (sendAt 7 37)).writes =
      [⟨7, A7ID, (msgPrefix ++ [51, 55]) ++ [0], 20⟩] ∧
    (msgPrefix ++ [51, 55]).length = 19 ∧
    ∀ wr ∈ (handleSendMsgTimer ERROR_NONE (sendAt 7 37)).writes,
      wr.size ≠ (msgPrefix ++ [51, 55]).length := by
  have h : (handleSendMsgTimer ERROR_NONE (sendAt 7 37)).writes =
      [⟨7, A7ID, (msgPrefix ++ [51, 55]) ++ [0], 20⟩] := by decide
  refine ⟨h, by decide, ?_⟩
  intro wr hwr
  rw [h] at hwr
  rw [List.mem_singleton.1 hwr]
  decide

/-- C12. Send error logging: whatever code `r` `Socket_Write` returns,
`handleSendMsgTimer` makes one `Socket_Write` call (no retry) and leaves the
message and `msgCounter` as it does for the no-error code; it adds nothing to
the log when `r` is the no-error code, and otherwise exactly one entry, which
carries the message text and `r`. -/
theorem send_error_logging (r : Int) (s : SendState) :
    (r = ERROR_NONE → (handleSendMsgTimer r s).log = s.log) ∧
    (r ≠ ERROR_NONE → (handleSendMsgTimer r s).log =
      s.log ++ [⟨"ERROR: sending msg %s - %ld\r\n", (handleSendMsgTimer r s).msg, r⟩]) ∧
    (handleSendMsgTimer r s).writes.length = s.writes.length + 1 ∧
    (handleSendMsgTimer r s).writes = (handleSendMsgTimer ERROR_NONE s).writes ∧
    (handleSendMsgTimer r s).msg = (handleSendMsgTimer ERROR_NONE s).msg ∧
    (handleSendMsgTimer r s).msgCounter = (handleSendMsgTimer ERROR_NONE s).msgCounter := by
  obtain ⟨h1, h2, h3⟩ := handleSendMsgTimer_msg r s
  obtain ⟨g1, g2, g3⟩ := handleSendMsgTimer_msg ERROR_NONE s
  refine ⟨?_, ?_, ?_, ?_, ?_, ?_⟩
  · intro hr
    subst hr
    simp [handleSendMsgTimer]
  · intro hr
    simp [handleSendMsgTimer, hr]
  · rw [h3]
    simp
  · rw [h3, g3, h1, g1]
  · rw [h1, g1]
  · rw [h2, g2]

/-- Instance of C12: the codes 0 and -5 at start-up. -/
theorem send_error_logging_witness :
    (handleSendMsgTimer 0 (sendInit 7)).log = [] ∧
    (handleSendMsgTimer (-5) (sendInit 7)).log =
      [⟨"ERROR: sending msg %s - %ld\r\n", msgPrefix ++ [48, 48, 0], -5⟩] :=
  ⟨(send_error_logging 0 (sendInit 7)).1 rfl,
    ((send_error_logging (-5) (sendInit 7)).2.1 (by decide)).trans (by decide)⟩

/-- C19. Message frame: with the counter below 100, `handleSendMsgTimer` keeps
the message 20 bytes long and changes no byte other than those at the indices
17 and 18 (so the 17 bytes of the prefix and the byte at index 19, the
terminating zero, stay as they were), and the two bytes it writes are the
ASCII digits of the tens and of the units of the counter. -/
theorem message_frame (error : Int) (s : SendState)
    (hlen : s.msg.length = 20) (hc : s.msgCounter < 100) :
    (handleSendMsgTimer error s).msg.length = 20 ∧
    (∀ i, i ≠ 17 → i ≠ 18 → (handleSendMsgTimer error s).msg[i]? = s.msg[i]?) ∧
    (handleSendMsgTimer error s).msg.take 17 = s.msg.take 17 ∧
    (handleSendMsgTimer error s).msg[19]? = s.msg[19]? ∧
    (handleSendMsgTimer error s).msg[17]? = some (48 + s.msgCounter / 10) ∧
    (handleSendMsgTimer error s).msg[18]? = some (48 + s.msgCounter % 10) ∧
    48 ≤ 48 + s.msgCounter / 10 ∧ 48 + s.msgCounter / 10 ≤ 57 ∧
    48 ≤ 48 + s.msgCounter % 10 ∧ 48 + s.msgCounter % 10 ≤ 57 := by
  have h1 : (48 + s.msgCounter % 10) % 256 = 48 + s.msgCounter % 10 := by omega
  have h2 : (48 + s.msgCounter / 10) % 256 = 48 + s.msgCounter / 10 := by omega
  rw [(handleSendMsgTimer_msg error s).1, h1, h2]
  have hframe : ∀ i, i ≠ 17 → i ≠ 18 →
      ((s.msg.set 18 (48 + s.msgCounter % 10)).set 17 (48 + s.msgCounter / 10))[i]? =
        s.msg[i]? := by
    intro i h17 h18
    rw [List.getElem?_set_ne (Ne.symm h17), List.getElem?_set_ne (Ne.symm h18)]
  refine ⟨by simp [hlen], hframe, ?_, hframe 19 (by decide) (by decide), ?_, ?_,
    by omega, by omega, by omega, by omega⟩
  · apply List.ext_getElem?
    intro i
    by_cases hi : i < 17
    · rw [List.getElem?_take_of_lt hi, List.getElem?_take_of_lt hi]
      exact hframe i (by omega) (by omega)
    · rw [List.getElem?_take_eq_none (by omega), List.getElem?_take_eq_none (by omega)]
  · rw [List.getElem?_set_self]
    simp [hlen]
  · rw [List.getElem?_set_ne (by decide), List.getElem?_set_self]
    simp [hlen]

/-- Instance of C19: the start-up message with the counter at 42. -/
theorem message_frame_witness :
    (sendAt 7 42).msg.length = 20 ∧ (sendAt 7 42).msgCounter < 100 ∧
    (handleSendMsgTimer ERROR_NONE (sendAt 7 42)).msg = msgPrefix ++ [52, 50, 0] ∧
    (handleSendMsgTimer ERROR_NONE (sendAt 7 42)).msg.take 17 = (sendAt 7 42).msg.take 17 :=
  ⟨by decide, by decide, by decide,
    (message_frame ERROR_NONE (sendAt 7 42) (by decide) (by decide)).2.2.1⟩

/-! ## Printing a component identifier -/

theorem printBytes_loop_eq (bytes : List Nat) :
    ∀ (n i : Nat), i + n ≤ bytes.length →
      printBytes_loop bytes i n = some (((bytes.drop i).take n).map UartOut.x) := by
  intro n
  induction n with
  | zero =>
    intro i _
    simp [printBytes_loop]
  | succ n ih =>
    intro i hi
    have hlt : i < bytes.length := by omega
    have hget : bytes.get? i = some bytes[i] := by
      rw [List.get?_eq_getElem?]
      exact List.getElem?_eq_getElem hlt
    rw [printBytes_loop, hget]
    simp only []
    rw [ih (i + 1) (by omega), List.drop_eq_getElem_cons hlt]
    simp only [List.take_succ_cons, List.map_cons]

theorem printBytes_eq (bytes : List Nat) (start size : Nat) (hsize : size ≤ bytes.length) :
    printBytes bytes start size = some (((bytes.take size).drop start).map UartOut.x) := by
  unfold printBytes
  by_cases h : start ≤ size
  · rw [printBytes_loop_eq bytes (size - start) start (by omega), List.drop_take]
  · have h0 : size - start = 0 := by omega
    rw [h0]
    have : (bytes.take size).drop start = [] := by
      apply List.drop_eq_nil_of_le
      rw [List.length_take]
      omega
    rw [this]
    rfl

/-- C20. Identifier byte coverage: `printBytes bytes start size` reads inside
the array whenever `size` is at most its length and emits exactly the bytes at
the indices `start`, ..., `size - 1` in increasing order (`size` is an end
index, not a count), nothing when `size ≤ start`; so for an 8-byte array the
calls with (0, 2) and (2, 8) together emit the eight bytes once each, in
order. -/
theorem printBytes_coverage (bytes : List Nat) (start size : Nat) :
    (size ≤ bytes.length →
      printBytes bytes start size = some (((bytes.take size).drop start).map UartOut.x) ∧
      ((bytes.take size).drop start).length = size - start ∧
      ∀ j, j < size - start → ((bytes.take size).drop start)[j]? = bytes[start + j]?) ∧
    (size ≤ start → printBytes bytes start size = some []) ∧
    (bytes.length = 8 →
      ∃ o1 o2, printBytes bytes 0 2 = some o1 ∧ printBytes bytes 2 8 = some o2 ∧
        o1 ++ o2 = bytes.map UartOut.x) := by
  refine ⟨?_, ?_, ?_⟩
  · intro hsize
    refine ⟨printBytes_eq bytes start size hsize, ?_, ?_⟩
    · rw [List.length_drop, List.length_take]
      omega
    · intro j hj
      rw [List.getElem?_drop, List.getElem?_take_of_lt (by omega)]
  · intro h
    have h0 : size - start = 0 := by omega
    simp [printBytes, h0, printBytes_loop]
  · intro h8
    refine ⟨_, _, printBytes_eq bytes 0 2 (by omega), printBytes_eq bytes 2 8 (by omega), ?_⟩
    have hall : bytes.take 8 = bytes := List.take_of_length_le (by omega)
    rw [hall, List.drop_zero, ← List.map_append, List.take_append_drop]

/-- Instance of C20: the eight bytes of the identifier of the peer. -/
theorem printBytes_coverage_witness :
    printBytes A7ID.seg_3_4 2 8 =
      some [UartOut.x 0xac, UartOut.x 0x26, UartOut.x 0xfc, UartOut.x 0xdd, UartOut.x 0x36,
        UartOut.x 0x27] ∧
    printBytes A7ID.seg_3_4 0 2 = some [UartOut.x 0xba, UartOut.x 0xe1] :=
  ⟨(((printBytes_coverage A7ID.seg_3_4 2 8).1 (by decide)).1).trans (by decide),
    by decide⟩

theorem split_at_first (d : Nat) :
    ∀ (xs us ys vs : List Nat), d ∉ xs → d ∉ us → xs ++ d :: ys = us ++ d :: vs →
      xs = us ∧ ys = vs := by
  intro xs
  induction xs with
  | nil =>
    intro us ys vs _ hu h
    cases us with
    | nil =>
      simp only [List.nil_append, List.cons.injEq, true_and] at h
      exact ⟨rfl, h⟩
    | cons u us =>
      simp only [List.nil_append, List.cons_append, List.cons.injEq] at h
      exact absurd (h.1 ▸ List.mem_cons_self u us) hu
  | cons x xs ih =>
    intro us ys vs hx hu h
    cases us with
    | nil =>
      simp only [List.nil_append, List.cons_append, List.cons.injEq] at h
      exact absurd (h.1 ▸ List.mem_cons_self x xs) hx
    | cons u us =>
      simp only [List.cons_append, List.cons.injEq] at h
      obtain ⟨h1, h2⟩ :=
        ih us ys vs (fun m => hx (List.mem_cons_of_mem x m))
          (fun m => hu (List.mem_cons_of_mem u m)) h.2
      exact ⟨by rw [h.1, h1], h2⟩

theorem printComponentId_paddedId :
    printComponentId paddedId =
      some [UartOut.lx 0x25025d2c, UartOut.lit "-", UartOut.x 0xa, UartOut.lit "-",
        UartOut.x 0x4448, UartOut.lit "-", UartOut.x 0xa, UartOut.x 0xe1, UartOut.lit "-",
        UartOut.x 0xac, UartOut.x 0x26, UartOut.x 0xfc, UartOut.x 0xdd, UartOut.x 0x36,
        UartOut.x 0x27, UartOut.lit "\r\n"] := by
  decide

theorem guidText_paddedId :
    guidText paddedId =
      [50, 53, 48, 50, 53, 100, 50, 99] ++ 45 :: ([48, 48, 48, 97] ++ 45 ::
        ([52, 52, 52, 56] ++ 45 :: ([48, 97, 101, 49] ++ 45 ::
          [97, 99, 50, 54, 102, 99, 100, 100, 51, 54, 50, 55, 13, 10]))) := by
  decide

theorem renderAll_paddedId (p : Directives) :
    renderAll p [UartOut.lx 0x25025d2c, UartOut.lit "-", UartOut.x 0xa, UartOut.lit "-",
        UartOut.x 0x4448, UartOut.lit "-", UartOut.x 0xa, UartOut.x 0xe1, UartOut.lit "-",
        UartOut.x 0xac, UartOut.x 0x26, UartOut.x 0xfc, UartOut.x 0xdd, UartOut.x 0x36,
        UartOut.x 0x27, UartOut.lit "\r\n"] =
      p.lx 0x25025d2c ++ 45 :: (p.x 0xa ++ 45 :: (p.x 0x4448 ++ 45 ::
        ((p.x 0xa ++ p.x 0xe1) ++ 45 ::
          (p.x 0xac ++ (p.x 0x26 ++ (p.x 0xfc ++ (p.x 0xdd ++ (p.x 0x36 ++
            (p.x 0x27 ++ [13, 10]))))))))) := by
  have hd : List.map Char.toNat "-".toList = [45] := by decide
  have hc : List.map Char.toNat "\r\n".toList = [13, 10] := by decide
  simp only [renderAll, List.map_cons, List.map_nil, List.flatten_cons, List.flatten_nil,
    render, hd, hc, List.append_assoc, List.cons_append, List.nil_append, List.append_nil]

/-- C15, the code at a failing input.  For the identifier
25025d2c-000a-4448-0ae1-ac26fcdd3627 `printComponentId` hands the value 0x0a to
the conversion `%x` twice, once for `seg_1` and once for the first byte of
`seg_3_4`; whatever `UART_Printf` emits for the conversions, the text on the
wire is not the rendering with the exact field widths, which needs "000a" for
the one and "0a" for the other. -/
theorem printComponentId_widths_fail :
    printComponentId paddedId =
      some [UartOut.lx 0x25025d2c, UartOut.lit "-", UartOut.x 0xa, UartOut.lit "-",
        UartOut.x 0x4448, UartOut.lit "-", UartOut.x 0xa, UartOut.x 0xe1, UartOut.lit "-",
        UartOut.x 0xac, UartOut.x 0x26, UartOut.x 0xfc, UartOut.x 0xdd, UartOut.x 0x36,
        UartOut.x 0x27, UartOut.lit "\r\n"] ∧
    ∀ (p : Directives) (out : List UartOut), printComponentId paddedId = some out →
      renderAll p out ≠ guidText paddedId := by
  refine ⟨printComponentId_paddedId, ?_⟩
  intro p out hout heq
  rw [printComponentId_paddedId] at hout
  cases hout
  rw [renderAll_paddedId, guidText_paddedId] at heq
  have hcount := congrArg (List.count 45) heq
  simp only [List.count_append, List.count_cons, List.count_nil] at hcount
  simp only [show ((45 : Nat) == 45) = true from rfl, show ((13 : Nat) == 45) = false from rfl,
    show ((10 : Nat) == 45) = false from rfl, show ((48 : Nat) == 45) = false from rfl,
    show ((49 : Nat) == 45) = false from rfl, show ((50 : Nat) == 45) = false from rfl,
    show ((51 : Nat) == 45) = false from rfl, show ((52 : Nat) == 45) = false from rfl,
    show ((53 : Nat) == 45) = false from rfl, show ((54 : Nat) == 45) = false from rfl,
    show ((55 : Nat) == 45) = false from rfl, show ((56 : Nat) == 45) = false from rfl,
    show ((97 : Nat) == 45) = false from rfl, show ((99 : Nat) == 45) = false from rfl,
    show ((100 : Nat) == 45) = false from rfl, show ((101 : Nat) == 45) = false from rfl,
    show ((102 : Nat) == 45) = false from rfl, if_true, Bool.false_eq_true,
    if_false] at hcount
  have c1 : List.count 45 (p.lx 0x25025d2c) = 0 := by omega
  have c2 : List.count 45 (p.x 0xa) = 0 := by omega
  have c3 : List.count 45 (p.x 0x4448) = 0 := by omega
  have c4 : List.count 45 (p.x 0xe1) = 0 := by omega
  have n1 := List.count_eq_zero.1 c1
  have n2 := List.count_eq_zero.1 c2
  have n3 := List.count_eq_zero.1 c3
  have n4 : 45 ∉ p.x 0xa ++ p.x 0xe1 := by
    intro hm
    rcases List.mem_append.1 hm with hm | hm
    · exact n2 hm
    · exact List.count_eq_zero.1 c4 hm
  obtain ⟨_, r1⟩ := split_at_first 45 _ _ _ _ n1 (by decide) heq
  obtain ⟨e2, r2⟩ := split_at_first 45 _ _ _ _ n2 (by decide) r1
  obtain ⟨_, r3⟩ := split_at_first 45 _ _ _ _ n3 (by decide) r2
  obtain ⟨e4, _⟩ := split_at_first 45 _ _ _ _ n4 (by decide) r3
  rw [e2] at e4
  simp at e4

/-! ## The receive buffer -/

theorem printComponentId_isSome (compId : Component_Id) (h : compId.seg_3_4.length = 8) :
    (printComponentId compId).isSome = true := by
  unfold printComponentId
  rw [printBytes_eq _ 0 2 (by omega), printBytes_eq _ 2 8 (by omega)]
  rfl

/-- C13, the code at a failing input.  `handleRecvMsg` passes the whole size of
`msg`, 32, as the capacity, so `Socket_Read` may leave `msg_size = 32` (a
message of 32 bytes, or a failed read that leaves the length as it was); the
store `msg[msg_size] = 0` then falls outside the 32 bytes of the buffer.  For
every length below 32 (and an 8-byte sender segment) the call goes through. -/
theorem handleRecvMsg_terminator :
    failedRead.size ≤ recvCapacity ∧
    handleRecvMsg 1 failedRead recvInit = none ∧
    (∀ (h : Nat) (r : SocketRead) (s : RecvState),
      r.size = recvCapacity → handleRecvMsg h r s = none) ∧
    (∀ (h : Nat) (r : SocketRead) (s : RecvState),
      r.size < recvCapacity → r.senderId.seg_3_4.length = 8 →
        (handleRecvMsg h r s).isSome = true) := by
  refine ⟨Nat.le_refl _, ?_, ?_, ?_⟩
  · simp [handleRecvMsg, failedRead, recvCapacity]
  · intro h r s hr
    simp [handleRecvMsg, hr, recvCapacity]
  · intro h r s hr hid
    have hlt : r.size < 32 := hr
    have hsome := printComponentId_isSome r.senderId hid
    obtain ⟨o, ho⟩ := Option.isSome_iff_exists.1 hsome
    simp [handleRecvMsg, hlt, ho]

/-! ## The payload of the receive node -/

theorem handleRecvMsgWrapper_data {σ : Type} (handle : Nat) (w : World σ) :
    ((handleRecvMsgWrapper handle w).mem.node recvCbn).data =
      if (w.mem.node recvCbn).data = 0 then handle else (w.mem.node recvCbn).data := by
  unfold handleRecvMsgWrapper
  simp only []
  rw [(EnqueueCallback_fields recvCbn _ recvCbn).2]
  by_cases h : (w.mem.node recvCbn).data = 0
  · simp [h, Mem.setNode]
  · simp [h]

theorem applyEvent_data {σ : Type} (w : World σ) (e : QueueEvent) (H : Nat)
    (hH : H ≠ 0) (h : (w.mem.node recvCbn).data = H) :
    ((applyEvent w e).mem.node recvCbn).data = H := by
  cases e with
  | recv handle =>
    show ((handleRecvMsgWrapper handle w).mem.node recvCbn).data = H
    rw [handleRecvMsgWrapper_data, h, if_neg hH]
  | timer t =>
    show ((EnqueueCallback sendCbn w.mem).node recvCbn).data = H
    rw [(EnqueueCallback_fields sendCbn _ recvCbn).2, h]
  | pop =>
    show ((InvokeCallbacks_pop w.mem).1.node recvCbn).data = H
    rw [(InvokeCallbacks_pop_fields _ recvCbn).2, h]

theorem applyEvents_data {σ : Type} (es : List QueueEvent) (H : Nat) (hH : H ≠ 0) :
    ∀ (w : World σ), (w.mem.node recvCbn).data = H →
      ((applyEvents w es).mem.node recvCbn).data = H := by
  induction es with
  | nil => intro w h; exact h
  | cons e es ih =>
    intro w h
    exact ih (applyEvent w e) (applyEvent_data w e H hH h)

theorem handleRecvMsgWrapper_cb {σ : Type} (handle : Nat) (w : World σ) (x : Nat) :
    ((handleRecvMsgWrapper handle w).mem.node x).cb = (w.mem.node x).cb := by
  unfold handleRecvMsgWrapper
  simp only []
  rw [(EnqueueCallback_fields recvCbn _ x).1]
  by_cases h : (w.mem.node recvCbn).data = 0
  · rw [if_pos h]
    by_cases hx : x = recvCbn
    · simp [Mem.setNode, hx]
    · simp [Mem.setNode, hx]
  · rw [if_neg h]

theorem applyEvents_cb_u {σ : Type} (es : List QueueEvent) :
    ∀ (w : World σ), (∀ x, ((applyEvents w es).mem.node x).cb = (w.mem.node x).cb) ∧
      (applyEvents w es).u = w.u := by
  induction es with
  | nil => intro w; exact ⟨fun _ => rfl, rfl⟩
  | cons e es ih =>
    intro w
    obtain ⟨h1, h2⟩ := ih (applyEvent w e)
    have hstep : (∀ x, ((applyEvent w e).mem.node x).cb = (w.mem.node x).cb) ∧
        (applyEvent w e).u = w.u := by
      cases e with
      | recv handle => exact ⟨handleRecvMsgWrapper_cb handle w, rfl⟩
      | timer t => exact ⟨fun x => (EnqueueCallback_fields sendCbn w.mem x).1, rfl⟩
      | pop => exact ⟨fun x => (InvokeCallbacks_pop_fields w.mem x).1, rfl⟩
    refine ⟨fun x => ?_, ?_⟩
    · show ((applyEvents (applyEvent w e) es).mem.node x).cb = (w.mem.node x).cb
      rw [h1 x, hstep.1 x]
    · show (applyEvents (applyEvent w e) es).u = w.u
      rw [h2, hstep.2]

/-- Every call of the receive node made by a drain runs `handleRecvMsg` on the
payload of the node: the state returned is the start state after as many
calls of `handleRecvMsg` on that payload as the run has called the node. -/
theorem recv_run_effect (r : SocketRead) (H : Nat) :
    ∀ (fuel : Nat) (v : World (Option RecvState)), (v.mem.node recvCbn).data = H →
      (v.mem.node recvCbn).cb = 1 → (∀ x, (v.mem.node x).cb = 1 → x = recvCbn) →
      ∀ w', (InvokeCallbacks (recvWork r) fuel v).1 = some w' →
        w'.u = Nat.iterate (fun o => o.bind (handleRecvMsg H r))
          ((calledNodes (InvokeCallbacks (recvWork r) fuel v).2).count recvCbn) v.u := by
  intro fuel
  induction fuel with
  | zero =>
    intro v _ _ _ w' h
    simp [InvokeCallbacks] at h
  | succ j ih =>
    intro v hd hc honly w' h
    rcases hp : InvokeCallbacks_pop v.mem with ⟨m, _ | x⟩
    · rw [InvokeCallbacks_succ_none (recvWork r) j v hp] at h ⊢
      simp only [Option.some.injEq] at h
      rw [← h]
      rfl
    · have hf := InvokeCallbacks_pop_fields v.mem
      rw [hp] at hf
      rw [InvokeCallbacks_succ_some (recvWork r) j v hp] at h ⊢
      simp only [calledNodes, List.map_cons] at h ⊢
      have hmem : ∀ d, (recvWork r (m.node x).cb d { v with mem := m }).mem = m := by
        intro d
        unfold recvWork
        by_cases h1 : (m.node x).cb = 1
        · rw [if_pos h1]
        · rw [if_neg h1]
      have hd2 : ((recvWork r (m.node x).cb (m.node x).data { v with mem := m }).mem.node
          recvCbn).data = H := by rw [hmem, (hf recvCbn).2, hd]
      have hc2 : ((recvWork r (m.node x).cb (m.node x).data { v with mem := m }).mem.node
          recvCbn).cb = 1 := by rw [hmem, (hf recvCbn).1, hc]
      have honly2 : ∀ y, ((recvWork r (m.node x).cb (m.node x).data
          { v with mem := m }).mem.node y).cb = 1 → y = recvCbn := by
        intro y hy
        rw [hmem, (hf y).1] at hy
        exact honly y hy
      have := ih _ hd2 hc2 honly2 w' h
      simp only [calledNodes] at this
      rw [this]
      by_cases hx : x = recvCbn
      · subst hx
        rw [List.count_cons_self, Function.iterate_succ_apply]
        have h1 : (m.node recvCbn).cb = 1 := by rw [(hf recvCbn).1, hc]
        have h2 : (m.node recvCbn).data = H := by rw [(hf recvCbn).2, hd]
        rw [h1, h2]
        rfl
      · rw [List.count_cons_of_ne (Ne.symm hx)]
        have h1 : (m.node x).cb ≠ 1 := fun e => hx (honly x (by rw [← (hf x).1]; exact e))
        have hu : (recvWork r (m.node x).cb (m.node x).data { v with mem := m }).u = v.u := by
          unfold recvWork
          rw [if_neg h1]
        rw [hu]

theorem handleRecvMsg_reads (handle : Nat) (r : SocketRead) (s s' : RecvState)
    (h : handleRecvMsg handle r s = some s') : s'.reads = s.reads ++ [handle] := by
  unfold handleRecvMsg at h
  simp only [] at h
  split at h
  · split at h
    · simp only [Option.some.injEq] at h
      rw [← h]
    · cases h
  · cases h

/-- A signal on a receive node that is pending with its payload set changes
nothing. -/
theorem handleRecvMsgWrapper_pending {σ : Type} (handle : Nat) (w : World σ)
    (hd : (w.mem.node recvCbn).data ≠ 0) (hp : (w.mem.node recvCbn).enqueued = true) :
    handleRecvMsgWrapper handle w = w := by
  unfold handleRecvMsgWrapper
  simp only [hd, if_false]
  rw [EnqueueCallback_pending recvCbn w.mem hp]

theorem signals_coalesce {σ : Type} (hs : List Nat) (w : World σ)
    (hd : (w.mem.node recvCbn).data ≠ 0) (hp : (w.mem.node recvCbn).enqueued = true) :
    applyEvents w (hs.map QueueEvent.recv) = w := by
  induction hs with
  | nil => rfl
  | cons h hs ih =>
    show applyEvents (handleRecvMsgWrapper h w) (hs.map QueueEvent.recv) = w
    rw [handleRecvMsgWrapper_pending h w hd hp]
    exact ih

/-- The first signal on an empty queue, then one drain: `handleRecvMsg` runs
once, on the handle of that signal. -/
theorem drain_after_signal (r : SocketRead) (H : Nat) (w : World (Option RecvState))
    (hnull : (w.mem.node recvCbn).data = 0) (hcb : (w.mem.node recvCbn).cb = 1)
    (hempty : w.mem.callbacks = none) (hidle : (w.mem.node recvCbn).enqueued = false)
    (fuel : Nat) (hfuel : 2 ≤ fuel) :
    ((handleRecvMsgWrapper H w).mem.node recvCbn).enqueued = true ∧
    ∃ w', (InvokeCallbacks (recvWork r) fuel (handleRecvMsgWrapper H w)).1 = some w' ∧
      calls (InvokeCallbacks (recvWork r) fuel (handleRecvMsgWrapper H w)).2 =
        [(recvCbn, 1, H)] ∧
      w'.u = w.u.bind (handleRecvMsg H r) := by
  obtain ⟨j, rfl⟩ : ∃ j, fuel = j + 2 := ⟨fuel - 2, by omega⟩
  obtain ⟨m0, hw, hhead0, hidle0, hcb0, hdata0⟩ :
      ∃ m0, handleRecvMsgWrapper H w = ⟨EnqueueCallback recvCbn m0, w.u⟩ ∧
        m0.callbacks = none ∧ (m0.node recvCbn).enqueued = false ∧
        (m0.node recvCbn).cb = 1 ∧ (m0.node recvCbn).data = H := by
    refine ⟨w.mem.setNode recvCbn ⟨(w.mem.node recvCbn).enqueued, (w.mem.node recvCbn).next, H,
      (w.mem.node recvCbn).cb⟩, ?_, hempty, ?_, ?_, ?_⟩
    · unfold handleRecvMsgWrapper
      simp only [hnull, if_true]
    · simp [Mem.setNode, hidle]
    · simp [Mem.setNode, hcb]
    · simp [Mem.setNode]
  rw [hw]
  have hE := EnqueueCallback_idle recvCbn m0 hidle0
  have hhead : (EnqueueCallback recvCbn m0).callbacks = some recvCbn := by rw [hE]
  have hp := InvokeCallbacks_pop_some (EnqueueCallback recvCbn m0) recvCbn hhead
  have hnext : ((EnqueueCallback recvCbn m0).node recvCbn).next = none := by
    rw [hE]
    simp [hhead0]
  have hcb1 : ((EnqueueCallback recvCbn m0).node recvCbn).cb = 1 := by
    rw [(EnqueueCallback_fields recvCbn m0 recvCbn).1, hcb0]
  have hdata1 : ((EnqueueCallback recvCbn m0).node recvCbn).data = H := by
    rw [(EnqueueCallback_fields recvCbn m0 recvCbn).2, hdata0]
  have hpend : ((EnqueueCallback recvCbn m0).node recvCbn).enqueued = true := by
    rw [hE]
    simp
  refine ⟨hpend, ?_⟩
  rw [hnext] at hp
  generalize EnqueueCallback recvCbn m0 = m1 at hp hcb1 hdata1
  rw [InvokeCallbacks_succ_some (recvWork r) (j + 1) ⟨m1, w.u⟩ hp]
  simp only [if_true, hcb1, hdata1, recvWork]
  rw [InvokeCallbacks_succ_none (recvWork r) j _ (InvokeCallbacks_pop_none _ rfl)]
  exact ⟨_, rfl, rfl, rfl⟩

/-- C14. Receive payload fixed on first signal: when the payload of the receive
node is still null, the first call `handleRecvMsgWrapper H1`, with a handle
`H1` (not the null pointer), sets the payload to `H1`; after any later
sequence of signals (whatever handles they carry), timer expiries and pops of
the drain loop the payload is still `H1`; and every deferred call the drain
loop then makes for the receive node is `handleRecvMsg` on `H1`, which calls
`Socket_Read` on the socket `H1`.  When the queue was empty, the first signal
and any number of later signals are followed by exactly one such call. -/
theorem recv_payload_fixed (w : World (Option RecvState)) (H1 : Nat) (es : List QueueEvent)
    (hs : List Nat) (r : SocketRead)
    (hnull : (w.mem.node recvCbn).data = 0) (hH : H1 ≠ 0)
    (hcb : (w.mem.node recvCbn).cb = 1)
    (honly : ∀ x, (w.mem.node x).cb = 1 → x = recvCbn) :
    ((handleRecvMsgWrapper H1 w).mem.node recvCbn).data = H1 ∧
    ((applyEvents (handleRecvMsgWrapper H1 w) es).mem.node recvCbn).data = H1 ∧
    (∀ fuel w',
      (InvokeCallbacks (recvWork r) fuel (applyEvents (handleRecvMsgWrapper H1 w) es)).1 =
        some w' →
      w'.u = Nat.iterate (fun o => o.bind (handleRecvMsg H1 r))
        ((calledNodes (InvokeCallbacks (recvWork r) fuel
          (applyEvents (handleRecvMsgWrapper H1 w) es)).2).count recvCbn) w.u) ∧
    (∀ s s', handleRecvMsg H1 r s = some s' → s'.reads = s.reads ++ [H1]) ∧
    (w.mem.callbacks = none → (w.mem.node recvCbn).enqueued = false →
      ∀ fuel, 2 ≤ fuel →
        ∃ w', (InvokeCallbacks (recvWork r) fuel
            (applyEvents (handleRecvMsgWrapper H1 w) (hs.map QueueEvent.recv))).1 = some w' ∧
          calls (InvokeCallbacks (recvWork r) fuel
            (applyEvents (handleRecvMsgWrapper H1 w) (hs.map QueueEvent.recv))).2 =
            [(recvCbn, 1, H1)] ∧
          w'.u = w.u.bind (handleRecvMsg H1 r)) := by
  have h1 : ((handleRecvMsgWrapper H1 w).mem.node recvCbn).data = H1 := by
    rw [handleRecvMsgWrapper_data, if_pos hnull]
  have h2 := applyEvents_data es H1 hH _ h1
  refine ⟨h1, h2, ?_, fun s s' h => handleRecvMsg_reads H1 r s s' h, ?_⟩
  · intro fuel w' h
    obtain ⟨hc, hu⟩ := applyEvents_cb_u es (handleRecvMsgWrapper H1 w)
    have hcb' : ∀ x, ((applyEvents (handleRecvMsgWrapper H1 w) es).mem.node x).cb =
        (w.mem.node x).cb := fun x => by rw [hc x, handleRecvMsgWrapper_cb]
    have := recv_run_effect r H1 fuel _ h2 (by rw [hcb' recvCbn, hcb])
      (fun x hx => honly x (by rw [← hcb' x]; exact hx)) w' h
    rw [this, hu]
    rfl
  · intro hempty hidle fuel hfuel
    obtain ⟨hpend, hdrain⟩ := drain_after_signal r H1 w hnull hcb hempty hidle fuel hfuel
    rw [signals_coalesce hs _ (by rw [h1]; exact hH) hpend]
    exact hdrain

/-- Instance of C14: the first signal at start-up carries the handle 7, then
come signals with the handle 9 and with the null pointer; the drain makes one
call of `handleRecvMsg`, which reads from the socket 7. -/
theorem recv_payload_fixed_witness :
    (bootMem.node recvCbn).data = 0 ∧ (7 : Nat) ≠ 0 ∧
    ((InvokeCallbacks (recvWork okRead) 2
      (applyEvents (handleRecvMsgWrapper 7 (⟨bootMem, some recvInit⟩ : World (Option RecvState)))
        ([9, 0].map QueueEvent.recv))).1.bind World.u).map RecvState.reads = some [7] ∧
    ((handleRecvMsgWrapper 7
      (⟨bootMem, some recvInit⟩ : World (Option RecvState))).mem.node recvCbn).data = 7 ∧
    ((applyEvents (handleRecvMsgWrapper 7 (⟨bootMem, some recvInit⟩ : World (Option RecvState)))
      [QueueEvent.recv 9, QueueEvent.pop, QueueEvent.recv 0]).mem.node recvCbn).data = 7 :=
  ⟨rfl, by decide, by decide,
    (recv_payload_fixed ⟨bootMem, some recvInit⟩ 7
      [QueueEvent.recv 9, QueueEvent.pop, QueueEvent.recv 0] [9, 0] okRead
      rfl (by decide) rfl (fun _ h => h)).1,
    (recv_payload_fixed ⟨bootMem, some recvInit⟩ 7
      [QueueEvent.recv 9, QueueEvent.pop, QueueEvent.recv 0] [9, 0] okRead
      rfl (by decide) rfl (fun _ h => h)).2.1⟩

/-! ## The interrupt mask -/

theorem EnqueueCallback_basePri (n : Nat) (m : Mem) :
    (EnqueueCallback n m).basePri = m.basePri := by
  cases h : (m.node n).enqueued with
  | true => rw [EnqueueCallback_pending n m h]
  | false => rw [EnqueueCallback_idle n m h]

theorem InvokeCallbacks_pop_basePri (m : Mem) :
    (InvokeCallbacks_pop m).1.basePri = m.basePri := by
  cases h : m.callbacks with
  | none => rw [InvokeCallbacks_pop_none m h]
  | some n => rw [InvokeCallbacks_pop_some m n h]

theorem InvokeCallbacks_basePri {σ : Type} (cbs : Work σ)
    (hkeep : ∀ f d (v : World σ), (cbs f d v).mem.basePri = v.mem.basePri) :
    ∀ (fuel : Nat) (w : World σ),
      (∀ e ∈ (InvokeCallbacks cbs fuel w).2, e.pre.basePri = w.mem.basePri) ∧
      ∀ w', (InvokeCallbacks cbs fuel w).1 = some w' → w'.mem.basePri = w.mem.basePri := by
  intro fuel
  induction fuel with
  | zero =>
    intro w
    simp [InvokeCallbacks]
  | succ j ih =>
    intro w
    have hb := InvokeCallbacks_pop_basePri w.mem
    rcases hp : InvokeCallbacks_pop w.mem with ⟨m, _ | n⟩
    · rw [hp] at hb
      rw [InvokeCallbacks_succ_none cbs j w hp]
      refine ⟨fun e he => by simp at he, ?_⟩
      intro w' hw'
      simp only [Option.some.injEq] at hw'
      rw [← hw']
      exact hb
    · rw [hp] at hb
      rw [InvokeCallbacks_succ_some cbs j w hp]
      obtain ⟨h1, h2⟩ := ih (cbs (m.node n).cb (m.node n).data { w with mem := m })
      have hlevel : (cbs (m.node n).cb (m.node n).data { w with mem := m }).mem.basePri =
          w.mem.basePri := by
        rw [hkeep]
        exact hb
      refine ⟨?_, ?_⟩
      · intro e he
        rcases List.mem_cons.1 he with rfl | he
        · exact hb
        · rw [h1 e he, hlevel]
      · intro w' hw'
        rw [h2 w' hw', hlevel]

/-- C16. Work runs outside the critical section: `EnqueueCallback` (node
pending or not) and the critical section of each iteration of
`InvokeCallbacks` (queue empty or not) leave the interrupt threshold at the
level they found; and when the work functions return with the threshold as
they found it, every work function is called with the threshold at the level
`InvokeCallbacks` was entered with, that is after the restore, and
`InvokeCallbacks` returns with that level. -/
theorem mask_restored {σ : Type} (cbs : Work σ) :
    (∀ n m, (EnqueueCallback n m).basePri = m.basePri) ∧
    (∀ m, (InvokeCallbacks_pop m).1.basePri = m.basePri) ∧
    ((∀ f d (v : World σ), (cbs f d v).mem.basePri = v.mem.basePri) →
      ∀ (fuel : Nat) (w : World σ),
        (∀ e ∈ (InvokeCallbacks cbs fuel w).2, e.pre.basePri = w.mem.basePri) ∧
        ∀ w', (InvokeCallbacks cbs fuel w).1 = some w' → w'.mem.basePri = w.mem.basePri) :=
  ⟨EnqueueCallback_basePri, InvokeCallbacks_pop_basePri, InvokeCallbacks_basePri cbs⟩

theorem chainWork_basePri (f d : Nat) (v : World Unit) :
    (chainWork f d v).mem.basePri = v.mem.basePri := by
  unfold chainWork
  by_cases hf : f = 1
  · rw [if_pos hf]
    exact EnqueueCallback_basePri 0 v.mem
  · rw [if_neg hf]

/-- Instance of C16: node 1 is pending and its work function enqueues node 0;
both are called with the threshold of the start-up state. -/
theorem mask_restored_witness :
    calledNodes (InvokeCallbacks chainWork 5 ⟨EnqueueCallback 1 bootMem, ()⟩).2 = [1, 0] ∧
    ∀ e ∈ (InvokeCallbacks chainWork 5 ⟨EnqueueCallback 1 bootMem, ()⟩).2,
      e.pre.basePri = (EnqueueCallback 1 bootMem).basePri :=
  ⟨by decide,
    ((mask_restored chainWork).2.2 chainWork_basePri 5 ⟨EnqueueCallback 1 bootMem, ()⟩).1⟩

/-! ## The timer handler -/

/-- The timer node alone in the queue: one drain runs `handleSendMsgTimer`
once. -/
theorem drain_after_timer (error : Int) (w : World SendState)
    (hempty : w.mem.callbacks = none) (hidle : (w.mem.node sendCbn).enqueued = false)
    (hcb : (w.mem.node sendCbn).cb = 0) (fuel : Nat) (hfuel : 2 ≤ fuel) :
    ∃ w', (InvokeCallbacks (sendWork error) fuel
        { w with mem := EnqueueCallback sendCbn w.mem }).1 = some w' ∧
      w'.u = handleSendMsgTimer error w.u ∧
      calledNodes (InvokeCallbacks (sendWork error) fuel
        { w with mem := EnqueueCallback sendCbn w.mem }).2 = [sendCbn] := by
  obtain ⟨j, rfl⟩ : ∃ j, fuel = j + 2 := ⟨fuel - 2, by omega⟩
  have hE := EnqueueCallback_idle sendCbn w.mem hidle
  have hhead : (EnqueueCallback sendCbn w.mem).callbacks = some sendCbn := by rw [hE]
  have hp := InvokeCallbacks_pop_some (EnqueueCallback sendCbn w.mem) sendCbn hhead
  have hnext : ((EnqueueCallback sendCbn w.mem).node sendCbn).next = none := by
    rw [hE]
    simp [hempty]
  have hcb' : ((EnqueueCallback sendCbn w.mem).node sendCbn).cb = 0 := by
    rw [(EnqueueCallback_fields sendCbn w.mem sendCbn).1, hcb]
  rw [hnext] at hp
  generalize EnqueueCallback sendCbn w.mem = m1 at hp hcb'
  rw [InvokeCallbacks_succ_some (sendWork error) (j + 1)
    { w with mem := m1 } hp]
  simp only [if_true, hcb', sendWork]
  rw [InvokeCallbacks_succ_none (sendWork error) j _
    (InvokeCallbacks_pop_none _ rfl)]
  exact ⟨_, rfl, rfl, rfl⟩

/-- C17. Interrupt handlers only defer: `handleSendMsgTimerWrapper` does
nothing but `EnqueueCallback` on its own node: `msgCounter`, the message, the
`Socket_Write` calls and the log are as before; when the queue was empty and
the node idle, the next `InvokeCallbacks` calls `handleSendMsgTimer` once, and
that is where the formatting and the `Socket_Write` call are made. -/
theorem timer_handler_only_defers (timer : Nat) (w : World SendState) :
    (handleSendMsgTimerWrapper timer w).mem = EnqueueCallback sendCbn w.mem ∧
    (handleSendMsgTimerWrapper timer w).u = w.u ∧
    (handleSendMsgTimerWrapper timer w).u.msgCounter = w.u.msgCounter ∧
    (handleSendMsgTimerWrapper timer w).u.msg = w.u.msg ∧
    (handleSendMsgTimerWrapper timer w).u.writes = w.u.writes ∧
    (handleSendMsgTimerWrapper timer w).u.log = w.u.log ∧
    (w.mem.callbacks = none → (w.mem.node sendCbn).enqueued = false →
      (w.mem.node sendCbn).cb = 0 → ∀ (error : Int) (fuel : Nat), 2 ≤ fuel →
        ∃ w', (InvokeCallbacks (sendWork error) fuel
            (handleSendMsgTimerWrapper timer w)).1 = some w' ∧
          w'.u = handleSendMsgTimer error w.u ∧
          w'.u.writes.length = w.u.writes.length + 1 ∧
          calledNodes (InvokeCallbacks (sendWork error) fuel
            (handleSendMsgTimerWrapper timer w)).2 = [sendCbn]) := by
  refine ⟨rfl, rfl, rfl, rfl, rfl, rfl, ?_⟩
  intro hempty hidle hcb error fuel hfuel
  obtain ⟨w', h1, h2, h3⟩ := drain_after_timer error w hempty hidle hcb fuel hfuel
  refine ⟨w', h1, h2, ?_, h3⟩
  rw [h2, (handleSendMsgTimer_msg error w.u).2.2]
  simp

/-- Instance of C17: the timer fires at start-up, then the queue is drained. -/
theorem timer_handler_only_defers_witness :
    (handleSendMsgTimerWrapper 3 (⟨bootMem, sendInit 7⟩ : World SendState)).u.writes = [] ∧
    ∃ w', (InvokeCallbacks (sendWork ERROR_NONE) 2
        (handleSendMsgTimerWrapper 3 (⟨bootMem, sendInit 7⟩ : World SendState))).1 = some w' ∧
      w'.u = handleSendMsgTimer ERROR_NONE (sendInit 7) ∧
      w'.u.writes.length = (sendInit 7).writes.length + 1 ∧
      calledNodes (InvokeCallbacks (sendWork ERROR_NONE) 2
        (handleSendMsgTimerWrapper 3 (⟨bootMem, sendInit 7⟩ : World SendState))).2 =
        [sendCbn] :=
  ⟨rfl,
    (timer_handler_only_defers 3 ⟨bootMem, sendInit 7⟩).2.2.2.2.2.2 rfl rfl rfl ERROR_NONE 2
      (Nat.le_refl 2)⟩

/-! ## The order of a drain -/

theorem enqueueAll_chain (ns : List Nat) :
    ∀ (m : Mem) (l : List Nat), chainFrom m.node m.callbacks l → ns.Nodup →
      (∀ x ∈ ns, x ∉ l) → (∀ x ∈ ns, (m.node x).enqueued = false) →
      chainFrom (enqueueAll ns m).node (enqueueAll ns m).callbacks (ns.reverse ++ l) := by
  induction ns with
  | nil =>
    intro m l hc _ _ _
    exact hc
  | cons n ns ih =>
    intro m l hc hnd hnot hidle
    obtain ⟨hn, hnd'⟩ := List.nodup_cons.1 hnd
    have hidle_n := hidle n (List.mem_cons_self n ns)
    have hc1 := chainFrom_enqueue hidle_n hc (hnot n (List.mem_cons_self n ns))
    have hnot1 : ∀ x ∈ ns, x ∉ n :: l := by
      intro x hx hm
      rcases List.mem_cons.1 hm with rfl | hm
      · exact hn hx
      · exact hnot x (List.mem_cons_of_mem n hx) hm
    have hidle1 : ∀ x ∈ ns, ((EnqueueCallback n m).node x).enqueued = false := by
      intro x hx
      have hxn : x ≠ n := fun e => hn (e ▸ hx)
      rw [EnqueueCallback_idle n m hidle_n]
      simp only [hxn, if_false]
      exact hidle x (List.mem_cons_of_mem n hx)
    have := ih (EnqueueCallback n m) (n :: l) hc1 hnd' hnot1 hidle1
    show chainFrom (enqueueAll ns (EnqueueCallback n m)).node
      (enqueueAll ns (EnqueueCallback n m)).callbacks ((n :: ns).reverse ++ l)
    rw [List.reverse_cons, List.append_assoc]
    exact this

/-- C18. LIFO drain order: on an empty queue (head null), for distinct idle
nodes `ns` whose work functions do not enqueue, after `EnqueueCallback` on
each node of `ns` in order, `InvokeCallbacks` returns having called the work
functions of the nodes in the reverse order, the node enqueued last first,
each on the data of its node; the program state it returns is the start state
after those calls, made in that order. -/
theorem lifo_drain_order {σ : Type} (cbs : Work σ) (w : World σ) (ns : List Nat)
    (hempty : w.mem.callbacks = none) (hnd : ns.Nodup)
    (hidle : ∀ x ∈ ns, (w.mem.node x).enqueued = false)
    (hno : ∀ x ∈ ns, NoEnqueue cbs (w.mem.node x).cb)
    (fuel : Nat) (hfuel : ns.length < fuel) :
    ∃ w', (InvokeCallbacks cbs fuel { w with mem := enqueueAll ns w.mem }).1 = some w' ∧
      calledNodes (InvokeCallbacks cbs fuel { w with mem := enqueueAll ns w.mem }).2 =
        ns.reverse ∧
      calls (InvokeCallbacks cbs fuel { w with mem := enqueueAll ns w.mem }).2 =
        ns.reverse.map (fun x => (x, (w.mem.node x).cb, (w.mem.node x).data)) ∧
      w'.u = replay cbs
        (InvokeCallbacks cbs fuel { w with mem := enqueueAll ns w.mem }).2 w.u := by
  have hc0 : chainFrom w.mem.node w.mem.callbacks [] := by
    rw [hempty]
    simp [chainFrom]
  have hc := enqueueAll_chain ns w.mem [] hc0 hnd (fun x _ => List.not_mem_nil x) hidle
  rw [List.append_nil] at hc
  have hno' : ∀ x ∈ ns.reverse, NoEnqueue cbs ((enqueueAll ns w.mem).node x).cb := by
    intro x hx
    rw [enqueueAll_cb]
    exact hno x (List.mem_reverse.1 hx)
  obtain ⟨w', h1, h2, _⟩ :=
    drain_chain cbs ns.reverse { w with mem := enqueueAll ns w.mem } hc
      (List.nodup_reverse.2 hnd) hno' fuel (by simpa using hfuel)
  refine ⟨w', h1, calledNodes_of_calls h2, ?_, InvokeCallbacks_replay cbs fuel _ w' h1⟩
  rw [h2]
  unfold pendingCalls
  apply List.map_congr_left
  intro x _
  rw [enqueueAll_cb, enqueueAll_data]

/-- Instance of C18: the nodes 0, 1, 2 are enqueued in that order at start-up,
every work function noting its call in a log; they are called in the order
2, 1, 0, and that is the order of the log on return. -/
theorem lifo_drain_order_witness :
    bootMem.callbacks = none ∧ [0, 1, 2].Nodup ∧
    (InvokeCallbacks logWork 4 ⟨enqueueAll [0, 1, 2] bootMem, []⟩).1.map World.u =
      some [(2, 0), (1, 0), (0, 0)] ∧
    ∃ w', (InvokeCallbacks logWork 4
        ⟨enqueueAll [0, 1, 2] bootMem, []⟩).1 = some w' ∧
      calledNodes (InvokeCallbacks logWork 4 ⟨enqueueAll [0, 1, 2] bootMem, []⟩).2 =
        [0, 1, 2].reverse ∧
      calls (InvokeCallbacks logWork 4 ⟨enqueueAll [0, 1, 2] bootMem, []⟩).2 =
        [0, 1, 2].reverse.map (fun x => (x, (bootMem.node x).cb, (bootMem.node x).data)) ∧
      w'.u = replay logWork
        (InvokeCallbacks logWork 4 ⟨enqueueAll [0, 1, 2] bootMem, []⟩).2 [] :=
  ⟨rfl, by decide, by decide,
    lifo_drain_order logWork ⟨bootMem, []⟩ [0, 1, 2] rfl (by decide) (fun _ _ => rfl)
      (fun _ _ => NoEnqueue_logWork _) 4 (by decide)⟩

end Mailbox
